import Mathlib

/-
Shallow embedding of the vesperdb query compilers (sqlite and pg dialects),
the mysql schema column compiler, the query cache with its table-keyed
invalidation, the cache-key fingerprint, and the table-name extractor.
Each definition is translated from the JavaScript source of the repository;
source locations are given in the doc comments.
-/

set_option maxHeartbeats 4000000
set_option maxRecDepth 100000

namespace VesperDB

/-! ## Association-list helpers

JavaScript `Map` objects (and the primary store of the lru-cache) are modelled
as association lists in insertion order.  `lookupA` is `Map.get`, `setA` is
`Map.set` (updating in place keeps the position), `deleteA` is `Map.delete`
(returning whether the key was present), `eraseKeyA` drops an entry. -/

def lookupA (k : String) : List (String × β) → Option β
  | [] => none
  | (k₂, v) :: rest => if k₂ = k then some v else lookupA k rest

def setA (k : String) (v : β) : List (String × β) → List (String × β)
  | [] => [(k, v)]
  | (k₂, u) :: rest => if k₂ = k then (k, v) :: rest else (k₂, u) :: setA k v rest

def deleteA (k : String) : List (String × β) → Bool × List (String × β)
  | [] => (false, [])
  | (k₂, v) :: rest =>
    if k₂ = k then (true, rest)
    else
      let r := deleteA k rest
      (r.1, (k₂, v) :: r.2)

def eraseKeyA (k : String) : List (String × β) → List (String × β)
  | [] => []
  | (k₂, v) :: rest => if k₂ = k then rest else (k₂, v) :: eraseKeyA k rest

/-- Keys of an association list are pairwise distinct (JS `Map` invariant). -/
abbrev keyNodup (m : List (String × β)) : Prop := (m.map Prod.fst).Nodup

/-! ## String helpers -/

/-- JavaScript `Array.prototype.join(sep)` on a list of strings. -/
def joinSep (sep : String) : List String → String
  | [] => ""
  | [x] => x
  | x :: y :: rest => x ++ sep ++ joinSep sep (y :: rest)

/-- Number of occurrences of the character `c` in the string `s`. -/
def countChar (c : Char) (s : String) : Nat := s.data.count c

/-- Decimal digit character, for `n < 10`. -/
def digitChar (n : Nat) : Char := Char.ofNat (48 + n)

/-- Decimal digits of a natural number, fuel-driven so that it reduces in the
kernel; correct whenever `n < fuel`. -/
def natDecAux : Nat → Nat → List Char
  | 0, _ => []
  | fuel + 1, n =>
    if n < 10 then [digitChar n] else natDecAux fuel (n / 10) ++ [digitChar (n % 10)]

/-- Decimal rendering of a natural number (JavaScript number-to-string for
non-negative integers). -/
def natDec (n : Nat) : String := String.mk (natDecAux (n + 1) n)

/-! ## Statement IR

The builder (src/unnamed/part_002, `QueryBuilder`) accumulates a `statements`
object with `select`, `where`, `join`, `orderBy`, `limit`, `offset`, `groupBy`
and `having`; predicates are `{column, operator, value, boolean}` objects.
Values are kept generic in `α`.  JavaScript `null`/`undefined` for
`limit`/`offset` is `none`. -/

structure Pred (α : Type) where
  column : String
  operator : String
  value : α
  boolean : String
deriving DecidableEq, Repr

structure Join where
  type : String
  table : String
  first : String
  operator : String
  second : String
deriving DecidableEq, Repr

structure OrderTerm where
  column : String
  direction : String
deriving DecidableEq, Repr

structure SelectStmts (α : Type) where
  select : List String := []
  join : List Join := []
  whereList : List (Pred α) := []
  groupBy : List String := []
  having : List (Pred α) := []
  orderBy : List OrderTerm := []
  limit : Option α := none
  offset : Option α := none
deriving DecidableEq, Repr

/-- Result of a compile call: the SQL text, the ordered parameter list, and the
diagnostics emitted through `console.warn` while rendering. -/
structure Compiled (α : Type) where
  sql : String
  bindings : List α
  warnings : List String
deriving DecidableEq, Repr

/-- A row handed to INSERT: a JavaScript object, modelled as an association
list of column name to value in key order. -/
def Row (α : Type) : Type := List (String × α)

namespace Sqlite

/-- JOIN keyword selection of src/src/dialects/sqlite/query-compiler.js:24-38:
`left` maps to LEFT JOIN; `right` and `full` are downgraded to LEFT JOIN with a
`console.warn` diagnostic; anything else maps to JOIN. -/
def joinKeyword (t : String) : String × List String :=
  if t = "left" then ("LEFT JOIN", [])
  else if t = "right" then
    ("LEFT JOIN", ["SQLite ne supporte pas RIGHT JOIN, utilisation de LEFT JOIN à la place"])
  else if t = "full" then
    ("LEFT JOIN", ["SQLite ne supporte pas FULL JOIN, utilisation de LEFT JOIN à la place"])
  else ("JOIN", [])

/-- One rendered join clause (query-compiler.js:40) with its diagnostics. -/
def joinPart (j : Join) : String × List String :=
  ((joinKeyword j.type).1 ++ " " ++ j.table ++ " ON " ++ j.first ++ " " ++ j.operator
      ++ " " ++ j.second,
    (joinKeyword j.type).2)

/-- The WHERE/HAVING predicate loop (query-compiler.js:44-60 and 66-82): clause
0 renders without the connective, clause `i > 0` prefixes `boolean`; each
iteration pushes the predicate's `value` onto the parameter list. -/
def predLoop (ps : List (Pred α)) : List String × List α :=
  match ps with
  | [] => ([], [])
  | p :: rest =>
    ((p.column ++ " " ++ p.operator ++ " ?")
        :: rest.map (fun q => q.boolean ++ " " ++ q.column ++ " " ++ q.operator ++ " ?"),
      (p :: rest).map Pred.value)

/-- compileSelect of src/src/dialects/sqlite/query-compiler.js:7-103.  Parts
are pushed in source order (SELECT list, FROM, joins, WHERE, GROUP BY, HAVING,
ORDER BY, LIMIT with OFFSET nested under it) and joined with spaces; parameters
are pushed in rendering order (WHERE values, HAVING values, limit, offset). -/
def compileSelect (tableName : String) (st : SelectStmts α) : Compiled α :=
  let selectPart := if st.select.length ≠ 0 then joinSep ", " st.select else "*"
  let joinParts := st.join.map (fun j => (joinPart j).1)
  let warnings := (st.join.map (fun j => (joinPart j).2)).flatten
  let whereRes := predLoop st.whereList
  let whereParts :=
    if st.whereList.length ≠ 0 then ["WHERE " ++ joinSep " " whereRes.1] else []
  let groupParts :=
    if st.groupBy.length ≠ 0 then ["GROUP BY " ++ joinSep ", " st.groupBy] else []
  let havingRes := predLoop st.having
  let havingParts :=
    if st.having.length ≠ 0 then ["HAVING " ++ joinSep " " havingRes.1] else []
  let orderParts :=
    if st.orderBy.length ≠ 0 then
      ["ORDER BY " ++ joinSep ", " (st.orderBy.map (fun o => o.column ++ " " ++ o.direction.toUpper))]
    else []
  let limitParts :=
    match st.limit with
    | some _ => ["LIMIT ?"] ++ (match st.offset with | some _ => ["OFFSET ?"] | none => [])
    | none => []
  let limitParams :=
    match st.limit with
    | some l => [l] ++ (match st.offset with | some o => [o] | none => [])
    | none => []
  let parts :=
    ["SELECT", selectPart, "FROM " ++ tableName] ++ joinParts ++ whereParts
      ++ groupParts ++ havingParts ++ orderParts ++ limitParts
  { sql := joinSep " " parts
    bindings := whereRes.2 ++ havingRes.2 ++ limitParams
    warnings := warnings }

/-- compileInsert of src/src/dialects/sqlite/query-compiler.js:110-135.  An
empty row set throws before any text is built.  Column list comes from the
first row's keys; each row contributes one parenthesized placeholder group and
pushes `row[column]` (possibly `undefined`, hence `Option`) per column. -/
def compileInsert (tableName : String) (rows : List (Row α)) :
    Except String (Compiled (Option α)) :=
  if rows.length = 0 then .error "Aucune donnée à insérer"
  else
    let columns := (rows.headD []).map Prod.fst
    let paramPlaceholders :=
      rows.map (fun _ => "(" ++ joinSep ", " (columns.map (fun _ => "?")) ++ ")")
    let params := (rows.map (fun row => columns.map (fun c => lookupA c row))).flatten
    .ok
      { sql := "INSERT INTO " ++ tableName ++ " (" ++ joinSep ", " columns
          ++ ") VALUES " ++ joinSep ", " paramPlaceholders
        bindings := params
        warnings := [] }

/-- compileUpdate of src/src/dialects/sqlite/query-compiler.js:144-181.  An
empty column-value map throws before any text is built; SET columns render in
map iteration (insertion) order, then the WHERE predicates. -/
def compileUpdate (tableName : String) (data : List (String × α))
    (whereStatements : List (Pred α)) : Except String (Compiled α) :=
  if data.length = 0 then .error "Aucune donnée à mettre à jour"
  else
    let setClauses := data.map (fun kv => kv.1 ++ " = ?")
    let setParams := data.map Prod.snd
    let whereRes := predLoop whereStatements
    let wherePart :=
      if whereStatements.length ≠ 0 then " WHERE " ++ joinSep " " whereRes.1 else ""
    .ok
      { sql := "UPDATE " ++ tableName ++ " SET " ++ joinSep ", " setClauses ++ wherePart
        bindings := setParams ++ whereRes.2
        warnings := [] }

/-- compileDelete of src/src/dialects/sqlite/query-compiler.js:189-215. -/
def compileDelete (tableName : String) (whereStatements : List (Pred α)) : Compiled α :=
  let whereRes := predLoop whereStatements
  let wherePart :=
    if whereStatements.length ≠ 0 then " WHERE " ++ joinSep " " whereRes.1 else ""
  { sql := "DELETE FROM " ++ tableName ++ wherePart
    bindings := whereRes.2
    warnings := [] }

end Sqlite

namespace Pg

/-- JOIN keyword selection of src/src/dialects/pg/index.js:108-123: pg supports
RIGHT and FULL JOIN natively, so no downgrade and no diagnostic. -/
def joinKeyword (t : String) : String :=
  if t = "left" then "LEFT JOIN"
  else if t = "right" then "RIGHT JOIN"
  else if t = "full" then "FULL JOIN"
  else "JOIN"

def joinPart (j : Join) : String :=
  joinKeyword j.type ++ " " ++ j.table ++ " ON " ++ j.first ++ " " ++ j.operator
    ++ " " ++ j.second

/-- One rendered predicate of the pg WHERE/HAVING loops
(src/src/dialects/pg/index.js:128-144, 151-167): the placeholder is `$k` with
the statement-wide `paramIndex` counter. -/
def predClause (first : Bool) (idx : Nat) (p : Pred α) : String :=
  (if first then "" else p.boolean ++ " ") ++ p.column ++ " " ++ p.operator
    ++ " $" ++ natDec idx

/-- The pg predicate loop starting at counter value `start`; returns the
rendered clauses and the pushed parameter values. -/
def predLoop (start : Nat) (ps : List (Pred α)) : List String × List α :=
  (ps.enum.map (fun ip => predClause (ip.1 = 0) (start + ip.1) ip.2),
    ps.map Pred.value)

/-- compileSelect of src/src/dialects/pg/index.js:92-187.  Identical clause
order to sqlite except that placeholders are `$k` with a monotonically
increasing counter starting at 1, and that LIMIT and OFFSET are rendered by two
independent `if` blocks, so OFFSET is emitted even when no LIMIT is set. -/
def compileSelect (tableName : String) (st : SelectStmts α) : Compiled α :=
  let selectPart := if st.select.length ≠ 0 then joinSep ", " st.select else "*"
  let joinParts := st.join.map joinPart
  let whereRes := predLoop 1 st.whereList
  let whereParts :=
    if st.whereList.length ≠ 0 then ["WHERE " ++ joinSep " " whereRes.1] else []
  let idxAfterWhere := 1 + st.whereList.length
  let groupParts :=
    if st.groupBy.length ≠ 0 then ["GROUP BY " ++ joinSep ", " st.groupBy] else []
  let havingRes := predLoop idxAfterWhere st.having
  let havingParts :=
    if st.having.length ≠ 0 then ["HAVING " ++ joinSep " " havingRes.1] else []
  let idxAfterHaving := idxAfterWhere + st.having.length
  let orderParts :=
    if st.orderBy.length ≠ 0 then
      ["ORDER BY " ++ joinSep ", " (st.orderBy.map (fun o => o.column ++ " " ++ o.direction.toUpper))]
    else []
  let limitParts :=
    match st.limit with
    | some _ => ["LIMIT $" ++ natDec idxAfterHaving]
    | none => []
  let idxAfterLimit := idxAfterHaving + (match st.limit with | some _ => 1 | none => 0)
  let offsetParts :=
    match st.offset with
    | some _ => ["OFFSET $" ++ natDec idxAfterLimit]
    | none => []
  let limitParams :=
    (match st.limit with | some l => [l] | none => [])
      ++ (match st.offset with | some o => [o] | none => [])
  let parts :=
    ["SELECT", selectPart, "FROM " ++ tableName] ++ joinParts ++ whereParts
      ++ groupParts ++ havingParts ++ orderParts ++ limitParts ++ offsetParts
  { sql := joinSep " " parts
    bindings := whereRes.2 ++ havingRes.2 ++ limitParams
    warnings := [] }

end Pg

namespace MysqlSchema

/-- Shape of the `DATA_TYPES` entries of src/unnamed/part_000: a plain native
type string, or a parametrized mapping (`string`, `decimal`). -/
inductive TypeEntry where
  | plain (s : String)
  | parametrized
deriving DecidableEq, Repr

/-- DATA_TYPES of src/unnamed/part_000:4-18.  An unlisted logical type name is
JavaScript `undefined`, modelled as `none`. -/
def DATA_TYPES (t : String) : Option TypeEntry :=
  if t = "integer" then some (.plain "INT")
  else if t = "bigInteger" then some (.plain "BIGINT")
  else if t = "text" then some (.plain "TEXT")
  else if t = "string" then some .parametrized
  else if t = "float" then some (.plain "FLOAT")
  else if t = "decimal" then some .parametrized
  else if t = "boolean" then some (.plain "TINYINT(1)")
  else if t = "date" then some (.plain "DATE")
  else if t = "datetime" then some (.plain "DATETIME")
  else if t = "timestamp" then some (.plain "TIMESTAMP")
  else if t = "binary" then some (.plain "BLOB")
  else if t = "json" then some (.plain "JSON")
  else if t = "uuid" then some (.plain "CHAR(36)")
  else none

/-- The parametrized mappings of part_000: `string(length)` defaults to 255,
`decimal(precision, scale)` defaults to (8, 2). -/
def parametrizedType (t : String) (length precision scale : Option Nat) : String :=
  if t = "string" then "VARCHAR(" ++ natDec (length.getD 255) ++ ")"
  else
    "DECIMAL(" ++ natDec (precision.getD 8) ++ ", " ++ natDec (scale.getD 2) ++ ")"

/-- A column handed to the schema compiler.  `defaultValue` distinguishes
`undefined` (no default), `null`, a string literal and a bare literal, matching
the `typeof` dispatch of the source. -/
inductive DefaultVal where
  | undef
  | null
  | str (s : String)
  | other (rendered : String)
deriving DecidableEq, Repr

structure Column where
  name : String
  type : String
  length : Option Nat := none
  precision : Option Nat := none
  scale : Option Nat := none
  autoIncrement : Bool := false
  nullable : Bool := false
  defaultValue : DefaultVal := .undef
deriving DecidableEq, Repr

/-- Single-quote character, written via its code point. -/
def sqc : String := String.mk [Char.ofNat 39]

/-- compileColumn of src/unnamed/part_000:158-190.  When `DATA_TYPES[type]` is
a function it is applied with the column's parameters; otherwise the looked-up
string is used, and an unknown type silently falls back to `VARCHAR(255)`
(`DATA_TYPES[column.type] || 'VARCHAR(255)'`) — no error is raised. -/
def compileColumn (column : Column) : String :=
  let typePart :=
    match DATA_TYPES column.type with
    | some .parametrized =>
      parametrizedType column.type column.length column.precision column.scale
    | some (.plain s) => s
    | none => "VARCHAR(255)"
  let parts := [column.name, typePart]
    ++ (if column.autoIncrement then ["AUTO_INCREMENT"] else [])
    ++ (if ¬column.nullable then ["NOT NULL"] else [])
    ++ (match column.defaultValue with
        | .undef => []
        | .null => ["DEFAULT NULL"]
        | .str s => ["DEFAULT " ++ sqc ++ s ++ sqc]
        | .other r => ["DEFAULT " ++ r])
  joinSep " " parts

end MysqlSchema

/-! ## Cache-key fingerprint

`generateCacheKey` (src/src/dialects/mssql/index.js:368-371) is
`md5(JSON.stringify({sql, bindings, dialect}))` in hex.  `JSON.stringify` and
the md5 digest come from the JavaScript runtime and `node:crypto`, outside the
repository; they are modelled here faithfully: the JSON serialization follows
ECMA-404/ECMA-262 (insertion-ordered keys, standard string escaping, decimal
integers — binding values are restricted to integers, strings, booleans and
null), and the digest is MD5 as specified by RFC 1321. -/

/-- A JSON-serializable binding value. -/
inductive JVal where
  | jnum (n : Int)
  | jstr (s : String)
  | jbool (b : Bool)
  | jnull
deriving DecidableEq, Repr

/-- Lowercase hexadecimal digit, for `n < 16`. -/
def hexDigitChar (n : Nat) : Char :=
  if n < 10 then Char.ofNat (48 + n) else Char.ofNat (87 + n)

/-- JSON escape of one character, as produced by `JSON.stringify`: quote and
backslash are backslash-escaped, the usual control shortcuts apply, the other
control characters become `\u00xx`, everything else is itself. -/
def escChar (c : Char) : List Char :=
  if c = '"' then ['\\', '"']
  else if c = '\\' then ['\\', '\\']
  else if c = Char.ofNat 8 then ['\\', 'b']
  else if c = Char.ofNat 9 then ['\\', 't']
  else if c = Char.ofNat 10 then ['\\', 'n']
  else if c = Char.ofNat 12 then ['\\', 'f']
  else if c = Char.ofNat 13 then ['\\', 'r']
  else if c.toNat < 32 then
    ['\\', 'u', '0', '0', hexDigitChar (c.toNat / 16), hexDigitChar (c.toNat % 16)]
  else [c]

def escL (cs : List Char) : List Char := cs.flatMap escChar

/-- JSON string literal: quote, escaped body, quote. -/
def encString (s : String) : List Char := '"' :: (escL s.data ++ ['"'])

/-- Decimal rendering of an integer (JavaScript number-to-string on exact
integers). -/
def intDecChars (n : Int) : List Char :=
  if n < 0 then '-' :: natDecAux (n.natAbs + 1) n.natAbs
  else natDecAux (n.toNat + 1) n.toNat

def encJVal : JVal → List Char
  | .jnum n => intDecChars n
  | .jstr s => encString s
  | .jbool true => "true".data
  | .jbool false => "false".data
  | .jnull => "null".data

/-- `Array.prototype.join`-style concatenation on character lists. -/
def joinLists (sep : List Char) : List (List Char) → List Char
  | [] => []
  | [x] => x
  | x :: y :: rest => x ++ sep ++ joinLists sep (y :: rest)

/-- JSON array literal. -/
def encArr (bs : List JVal) : List Char :=
  '[' :: (joinLists [','] (bs.map encJVal) ++ [']'])

/-- `JSON.stringify({ sql, bindings, dialect })`: the three keys render in
insertion order. -/
def encodePayload (sql : String) (bindings : List JVal) (dialect : String) : List Char :=
  "\x7b\"sql\":\"".data ++ escL sql.data ++ "\",\"bindings\":".data ++ encArr bindings
    ++ ",\"dialect\":\"".data ++ escL dialect.data ++ "\"\x7d".data

/-- UTF-8 encoding of one code point (`crypto.update` hashes the UTF-8 bytes
of the string). -/
def utf8Bytes (c : Char) : List Nat :=
  let n := c.toNat
  if n < 128 then [n]
  else if n < 2048 then [192 + n / 64, 128 + n % 64]
  else if n < 65536 then [224 + n / 4096, 128 + (n / 64) % 64, 128 + n % 64]
  else [240 + n / 262144, 128 + (n / 4096) % 64, 128 + (n / 64) % 64, 128 + n % 64]

def encodeUtf8 (cs : List Char) : List Nat := cs.flatMap utf8Bytes

/-! ### MD5 (RFC 1321) -/

/-- Truncation to a 32-bit word. -/
def w32 (n : Nat) : Nat := n % 4294967296

def add32 (a b : Nat) : Nat := w32 (a + b)

def not32 (a : Nat) : Nat := Nat.xor 4294967295 (w32 a)

def rotl32 (x s : Nat) : Nat :=
  w32 (Nat.lor (Nat.shiftLeft (w32 x) s) (Nat.shiftRight (w32 x) (32 - s)))

/-- The round constants `K[i] = floor(2^32 * |sin(i+1)|)` of RFC 1321. -/
def md5K : List Nat :=
  [0xd76aa478, 0xe8c7b756, 0x242070db, 0xc1bdceee,
   0xf57c0faf, 0x4787c62a, 0xa8304613, 0xfd469501,
   0x698098d8, 0x8b44f7af, 0xffff5bb1, 0x895cd7be,
   0x6b901122, 0xfd987193, 0xa679438e, 0x49b40821,
   0xf61e2562, 0xc040b340, 0x265e5a51, 0xe9b6c7aa,
   0xd62f105d, 0x02441453, 0xd8a1e681, 0xe7d3fbc8,
   0x21e1cde6, 0xc33707d6, 0xf4d50d87, 0x455a14ed,
   0xa9e3e905, 0xfcefa3f8, 0x676f02d9, 0x8d2a4c8a,
   0xfffa3942, 0x8771f681, 0x6d9d6122, 0xfde5380c,
   0xa4beea44, 0x4bdecfa9, 0xf6bb4b60, 0xbebfbc70,
   0x289b7ec6, 0xeaa127fa, 0xd4ef3085, 0x04881d05,
   0xd9d4d039, 0xe6db99e5, 0x1fa27cf8, 0xc4ac5665,
   0xf4292244, 0x432aff97, 0xab9423a7, 0xfc93a039,
   0x655b59c3, 0x8f0ccc92, 0xffeff47d, 0x85845dd1,
   0x6fa87e4f, 0xfe2ce6e0, 0xa3014314, 0x4e0811a1,
   0xf7537e82, 0xbd3af235, 0x2ad7d2bb, 0xeb86d391]

/-- The per-round left-rotation amounts of RFC 1321. -/
def md5S : List Nat :=
  [7, 12, 17, 22, 7, 12, 17, 22, 7, 12, 17, 22, 7, 12, 17, 22,
   5, 9, 14, 20, 5, 9, 14, 20, 5, 9, 14, 20, 5, 9, 14, 20,
   4, 11, 16, 23, 4, 11, 16, 23, 4, 11, 16, 23, 4, 11, 16, 23,
   6, 10, 15, 21, 6, 10, 15, 21, 6, 10, 15, 21, 6, 10, 15, 21]

/-- Nonlinear function and message index of round `i`. -/
def md5FG (i b c d : Nat) : Nat × Nat :=
  if i < 16 then
    (Nat.lor (Nat.land b c) (Nat.land (not32 b) d), i)
  else if i < 32 then
    (Nat.lor (Nat.land d b) (Nat.land (not32 d) c), (5 * i + 1) % 16)
  else if i < 48 then
    (Nat.xor b (Nat.xor c d), (3 * i + 5) % 16)
  else
    (Nat.xor c (Nat.lor b (not32 d)), (7 * i) % 16)

/-- One of the 64 steps of the MD5 compression function. -/
def md5Step (m : List Nat) (st : Nat × Nat × Nat × Nat) (i : Nat) :
    Nat × Nat × Nat × Nat :=
  let a := st.1
  let b := st.2.1
  let c := st.2.2.1
  let d := st.2.2.2
  let fg := md5FG i b c d
  let f := add32 (add32 (add32 fg.1 a) (md5K.getD i 0)) (m.getD fg.2 0)
  (d, add32 b (rotl32 f (md5S.getD i 0)), b, c)

/-- Little-endian 32-bit word from four bytes. -/
def leWord (b0 b1 b2 b3 : Nat) : Nat :=
  b0 + 256 * b1 + 65536 * b2 + 16777216 * b3

/-- The sixteen message words of one 64-byte block. -/
def blockWords (blk : List Nat) : List Nat :=
  (List.range 16).map (fun j =>
    leWord (blk.getD (4 * j) 0) (blk.getD (4 * j + 1) 0)
      (blk.getD (4 * j + 2) 0) (blk.getD (4 * j + 3) 0))

/-- MD5 compression of one block into the running state. -/
def md5Compress (st : Nat × Nat × Nat × Nat) (blk : List Nat) :
    Nat × Nat × Nat × Nat :=
  let m := blockWords blk
  let r := (List.range 64).foldl (md5Step m) st
  (add32 st.1 r.1, add32 st.2.1 r.2.1, add32 st.2.2.1 r.2.2.1, add32 st.2.2.2 r.2.2.2)

/-- RFC 1321 padding: append `0x80`, zero-fill to 56 mod 64, then the bit
length modulo `2^64` as eight little-endian bytes. -/
def md5Pad (msg : List Nat) : List Nat :=
  let len := msg.length
  let zeros := (56 + 64 - (len + 1) % 64) % 64
  let bitLen := (8 * len) % 18446744073709551616
  msg ++ [128] ++ List.replicate zeros 0
    ++ (List.range 8).map (fun j => (bitLen / 256 ^ j) % 256)

/-- Split into 64-byte blocks (fuel-driven; `fuel ≥ length` suffices). -/
def chunks64 : Nat → List Nat → List (List Nat)
  | 0, _ => []
  | fuel + 1, bs =>
    if bs.length = 0 then [] else bs.take 64 :: chunks64 fuel (bs.drop 64)

/-- Little-endian byte serialization of one state word. -/
def leBytes (w : Nat) : List Nat :=
  [w % 256, w / 256 % 256, w / 65536 % 256, w / 16777216 % 256]

/-- The sixteen digest bytes of MD5 over a byte message. -/
def md5Bytes (msg : List Nat) : List Nat :=
  let padded := md5Pad msg
  let st := (chunks64 padded.length padded).foldl md5Compress
    (0x67452301, 0xefcdab89, 0x98badcfe, 0x10325476)
  leBytes st.1 ++ leBytes st.2.1 ++ leBytes st.2.2.1 ++ leBytes st.2.2.2

def byteHex (b : Nat) : List Char :=
  [hexDigitChar (b / 16 % 16), hexDigitChar (b % 16)]

/-- Lowercase hex digest string of MD5 over a byte message. -/
def md5Hex (msg : List Nat) : String := String.mk ((md5Bytes msg).flatMap byteHex)

/-- generateCacheKey of src/src/dialects/mssql/index.js:368-371:
`md5(JSON.stringify({sql, bindings, dialect}))` as a hex string. -/
def generateCacheKey (sql : String) (bindings : List JVal := [])
    (dialect : String := "") : String :=
  md5Hex (encodeUtf8 (encodePayload sql bindings dialect))

/-! ## Query cache

`QueryCache` of src/src/dialects/mssql/index.js:373-495.  The primary store is
the external `lru-cache` instance, modelled as an association list from key to
value (its TTL/recency bookkeeping is not needed by the claims; autonomous
capacity/TTL eviction appears as an explicit `evict` step below).  The
secondary index `tableMap` is a `Map` from table name to a `Set` of keys,
modelled as an association list of insertion-ordered duplicate-free lists.  The
JavaScript falsiness check `if (!value) return false` in `set` is modelled by
passing an `Option`: `none` is a falsy result. -/

structure QueryCache (V : Type) where
  store : List (String × V)
  tableMap : List (String × List String)
  hits : Nat
  misses : Nat
  sets : Nat
  invalidations : Nat
  maxSize : Nat
deriving DecidableEq, Repr

/-- A fresh cache with capacity `maxSize` (`options.max`, default 500). -/
def emptyCache (V : Type) (maxSize : Nat := 500) : QueryCache V :=
  ⟨[], [], 0, 0, 0, 0, maxSize⟩

/-- get of index.js:396-414: a present key counts a hit, an absent one a miss
and returns null. -/
def QueryCache.get (c : QueryCache V) (sql : String) (bindings : List JVal := [])
    (dialect : String := "") : Option V × QueryCache V :=
  let key := generateCacheKey sql bindings dialect
  match lookupA key c.store with
  | some v => (some v, { c with hits := c.hits + 1 })
  | none => (none, { c with misses := c.misses + 1 })

/-- The table-registration loop of set (index.js:429-436): ensure an index
entry exists for each table and add the key to its set. -/
def addKeyToTables (key : String) (tables : List String)
    (tm : List (String × List String)) : List (String × List String) :=
  tables.foldl
    (fun tm t =>
      match lookupA t tm with
      | some ks => setA t (if key ∈ ks then ks else ks ++ [key]) tm
      | none => setA t [key] tm)
    tm

/-- set of index.js:423-441: falsy values are rejected; otherwise the key is
registered under every table, then stored, and the `sets` counter bumped. -/
def QueryCache.set (c : QueryCache V) (sql : String) (bindings : List JVal)
    (value : Option V) (dialect : String) (tables : List String) :
    Bool × QueryCache V :=
  match value with
  | none => (false, c)
  | some v =>
    let key := generateCacheKey sql bindings dialect
    let tm := addKeyToTables key tables c.tableMap
    (true, { c with store := setA key v c.store, tableMap := tm, sets := c.sets + 1 })

/-- The per-table-set deletion loop of invalidateByTables (index.js:452-456):
delete every key from the primary store, counting the deletes that found their
key. -/
def deleteKeys (ks : List String) (p : Nat × List (String × V)) :
    Nat × List (String × V) :=
  ks.foldl
    (fun p k =>
      let d := deleteA k p.2
      (if d.1 then p.1 + 1 else p.1, d.2))
    p

/-- Processing of one table name inside invalidateByTables: if the table has
an index entry, delete its keys from the store and drop the entry. -/
def invalidateStep (acc : Nat × QueryCache V) (t : String) : Nat × QueryCache V :=
  match lookupA t acc.2.tableMap with
  | some ks =>
    let r := deleteKeys ks (acc.1, acc.2.store)
    (r.1, { acc.2 with store := r.2, tableMap := eraseKeyA t acc.2.tableMap })
  | none => acc

/-- invalidateByTables of index.js:447-463: walk the table list, then add the
number of removed entries to the `invalidations` counter and return it. -/
def QueryCache.invalidateByTables (c : QueryCache V) (tables : List String) :
    Nat × QueryCache V :=
  let r := tables.foldl invalidateStep (0, c)
  (r.1, { r.2 with invalidations := r.2.invalidations + r.1 })

/-- clear of index.js:465-475: empty both structures and zero every counter. -/
def QueryCache.clear (c : QueryCache V) : QueryCache V :=
  { c with store := [], tableMap := [],
           hits := 0, misses := 0, sets := 0, invalidations := 0 }

/-- The statistics record of getStats. `hitRate` is a JavaScript float,
modelled as an exact rational. -/
structure CacheStats where
  hits : Nat
  misses : Nat
  sets : Nat
  invalidations : Nat
  total : Nat
  hitRate : ℚ
  size : Nat
  maxSize : Nat
deriving DecidableEq, Repr

/-- getStats of index.js:480-495: `hitRate` is `hits/total*100` rounded to two
decimals (`Math.round(x*100)/100`) when total is positive, else 0. -/
def QueryCache.getStats (c : QueryCache V) : CacheStats :=
  let total := c.hits + c.misses
  { hits := c.hits
    misses := c.misses
    sets := c.sets
    invalidations := c.invalidations
    total := total
    hitRate := if 0 < total then (round ((c.hits : ℚ) / total * 100 * 100) : ℚ) / 100 else 0
    size := c.store.length
    maxSize := c.maxSize }

/-- One cache operation of an execution history.  `evict` is modelled from the
spec: the external lru-cache removes an entry from the primary store on
capacity pressure or TTL expiry; the QueryCache registers no disposal hook, so
an eviction touches only the primary store. -/
inductive CacheOp (V : Type) where
  | get (sql : String) (bindings : List JVal) (dialect : String)
  | set (sql : String) (bindings : List JVal) (value : Option V) (dialect : String)
      (tables : List String)
  | invalidate (tables : List String)
  | evict (key : String)
  | clear
deriving DecidableEq, Repr

def applyOp (c : QueryCache V) : CacheOp V → QueryCache V
  | .get s b d => (c.get s b d).2
  | .set s b v d ts => (c.set s b v d ts).2
  | .invalidate ts => (c.invalidateByTables ts).2
  | .evict k => { c with store := (deleteA k c.store).2 }
  | .clear => c.clear

def runOps (c : QueryCache V) (ops : List (CacheOp V)) : QueryCache V :=
  ops.foldl applyOp c

/-- Whether a trace operation is a `set` that registers at least one table. -/
def setTablesNonempty : CacheOp V → Bool
  | .set _ _ _ _ ts => !ts.isEmpty
  | _ => true

/-- The store-to-index direction of the cache invariant: every fingerprint in
the primary store is reachable through the secondary index. -/
def storeIndexed (c : QueryCache V) : Prop :=
  ∀ k, (lookupA k c.store).isSome → ∃ t ks, lookupA t c.tableMap = some ks ∧ k ∈ ks

/-! ## Table extractor

`QueryCache.extractTablesFromQuery` of src/src/dialects/mssql/index.js:501-532:
five case-insensitive regex patterns `KEYWORD\s+([\w.]+)`, scanned globally;
each captured token is stripped of quoting punctuation, split on a `\s+AS\s+`
alias separator (a no-op on these tokens, which contain no whitespace), reduced
to `split('.')[1]` when it contains a dot, and the lower-cased result is added
to a set unless empty. -/

/-- ASCII word character of the regex class `\w` (letters, digits, and the
underscore, code point 95). -/
def isWordChar (c : Char) : Bool :=
  (97 ≤ c.toNat && c.toNat ≤ 122) || (65 ≤ c.toNat && c.toNat ≤ 90)
    || (48 ≤ c.toNat && c.toNat ≤ 57) || c.toNat == 95

/-- Character of the capture class `[\w.]` (the dot is code point 46). -/
def isWordDot (c : Char) : Bool := isWordChar c || c.toNat == 46

/-- ASCII whitespace of the regex class `\s`: space, tab, line feed, carriage
return, vertical tab, form feed (the Unicode space code points `\s` also
covers do not occur in rendered SQL). -/
def isSpaceChar (c : Char) : Bool :=
  c.toNat == 32 || c.toNat == 9 || c.toNat == 10 || c.toNat == 13
    || c.toNat == 11 || c.toNat == 12

/-- ASCII lower-casing of one character (`toLowerCase` on identifiers). -/
def charLower (c : Char) : Char :=
  if 65 ≤ c.toNat ∧ c.toNat ≤ 90 then Char.ofNat (c.toNat + 32) else c

/-- Case-insensitively strip the keyword `kw` (given lowercase) from the head
of the input, returning the rest. -/
def stripKw : List Char → List Char → Option (List Char)
  | [], cs => some cs
  | _ :: _, [] => none
  | k :: ks, c :: cs => if charLower c = k then stripKw ks cs else none

/-- Try to match `KEYWORD\s+([\w.]+)` at the head of the input: the keyword,
then at least one whitespace character, then a maximal nonempty run of `[\w.]`
characters (the capture).  Returns the capture and the rest. -/
def tryMatch (kw : List Char) (cs : List Char) : Option (List Char × List Char) :=
  (stripKw kw cs).bind fun r1 =>
    let ws := r1.takeWhile isSpaceChar
    if ws.length = 0 then none
    else
      let r2 := r1.drop ws.length
      let tok := r2.takeWhile isWordDot
      if tok.length = 0 then none else some (tok, r2.drop tok.length)

/-- Global scan of one pattern (`regex.exec` loop): try the pattern at each
position, emit the capture and continue after the match; fuel-driven, with
`fuel ≥ length` sufficient for a full scan. -/
def scanKw (kw : List Char) : Nat → List Char → List (List Char)
  | 0, _ => []
  | _ + 1, [] => []
  | fuel + 1, c :: rest =>
    match tryMatch kw (c :: rest) with
    | some p => p.1 :: scanKw kw fuel p.2
    | none => scanKw kw fuel rest

/-- The quote-stripping `replace(/[`"'[\]]/g, '')` of index.js:520: removes
backticks (96), double quotes (34), single quotes (39) and brackets (91, 93). -/
def stripQuoteChars (tok : List Char) : List Char :=
  tok.filter (fun c =>
    !(c.toNat == 96 || c.toNat == 34 || c.toNat == 39 || c.toNat == 91
      || c.toNat == 93))

/-- Whether `\s+AS\s+` (case-insensitive) matches at the head of the input. -/
def matchAS (cs : List Char) : Bool :=
  let ws := cs.takeWhile isSpaceChar
  if ws.length = 0 then false
  else
    match cs.drop ws.length with
    | a :: s :: rest =>
      charLower a == 'a' && charLower s == 's'
        && !(rest.takeWhile isSpaceChar).isEmpty
    | _ => false

/-- First segment of `split(/\s+AS\s+/i)`: everything before the first
position where the alias separator matches. -/
def asSplit : List Char → List Char
  | [] => []
  | c :: rest => if matchAS (c :: rest) then [] else c :: asSplit rest

/-- JavaScript `trim()`. -/
def trimBoth (cs : List Char) : List Char :=
  ((cs.dropWhile isSpaceChar).reverse.dropWhile isSpaceChar).reverse

/-- JavaScript `String.prototype.split` with a one-character separator:
`"".split` is `[""]`, and every separator occurrence opens a new segment. -/
def splitOnChar (sep : Char) : List Char → List (List Char)
  | [] => [[]]
  | c :: rest =>
    let r := splitOnChar sep rest
    if c = sep then [] :: r else (c :: r.headD []) :: r.tail

/-- The per-match processing of index.js:519-529: strip quotes, drop an alias
suffix, take `split('.')[1]` when the token is qualified, lower-case. -/
def processTok (tok : List Char) : List Char :=
  let t1 := stripQuoteChars tok
  let t2 := trimBoth (asSplit t1)
  let t3 := if '.' ∈ t2 then (splitOnChar '.' t2).getD 1 [] else t2
  t3.map charLower

/-- The five keyword-anchored patterns, in source order. -/
def tableKeywords : List String := ["from", "join", "into", "update", "table"]

/-- Adding one processed capture to the result set (`tables.add(...)` guarded
by `if (tableName)`). -/
def addTok (acc : List String) (tok : List Char) : List String :=
  let t := processTok tok
  if t.length = 0 then acc
  else if String.mk t ∈ acc then acc else acc ++ [String.mk t]

/-- extractTablesFromQuery of index.js:501-532.  The result models the
JavaScript `Set`: insertion-ordered and duplicate-free; empty processed tokens
are not added. -/
def extractTablesFromQuery (sql : String) : List String :=
  tableKeywords.foldl
    (fun acc kw => (scanKw kw.data sql.data.length sql.data).foldl addTok acc)
    []

/-! ## JSON payload decoder (verification artifact)

A parser for the image of `encodePayload`, used to prove that the serialized
cache-key payload determines the `(sql, bindings, dialect)` triple. -/

/-- Value of a lowercase hexadecimal digit. -/
def hexVal (c : Char) : Nat :=
  if c.toNat ≤ 57 then c.toNat - 48 else c.toNat - 87

/-- Parse the body of a JSON string up to and including the closing quote,
undoing `escChar`. -/
def parseStrAux : List Char → Option (List Char × List Char)
  | [] => none
  | c :: rest =>
    if c = '"' then some ([], rest)
    else if c = '\\' then
      match rest with
      | [] => none
      | e :: rest2 =>
        if e = '"' then (parseStrAux rest2).map (fun p => ('"' :: p.1, p.2))
        else if e = '\\' then (parseStrAux rest2).map (fun p => ('\\' :: p.1, p.2))
        else if e = 'b' then
          (parseStrAux rest2).map (fun p => (Char.ofNat 8 :: p.1, p.2))
        else if e = 't' then
          (parseStrAux rest2).map (fun p => (Char.ofNat 9 :: p.1, p.2))
        else if e = 'n' then
          (parseStrAux rest2).map (fun p => (Char.ofNat 10 :: p.1, p.2))
        else if e = 'f' then
          (parseStrAux rest2).map (fun p => (Char.ofNat 12 :: p.1, p.2))
        else if e = 'r' then
          (parseStrAux rest2).map (fun p => (Char.ofNat 13 :: p.1, p.2))
        else if e = 'u' then
          match rest2 with
          | z1 :: z2 :: x1 :: x2 :: rest3 =>
            if z1 = '0' ∧ z2 = '0' then
              (parseStrAux rest3).map
                (fun p => (Char.ofNat (16 * hexVal x1 + hexVal x2) :: p.1, p.2))
            else none
          | _ => none
        else none
    else (parseStrAux rest).map (fun p => (c :: p.1, p.2))

def isDigitChar (c : Char) : Bool := 48 ≤ c.toNat && c.toNat ≤ 57

/-- Whether the input starts with a decimal digit. -/
def headDigit : List Char → Bool
  | c :: _ => isDigitChar c
  | [] => false

def parseDigitsAux (acc : Nat) : List Char → Nat × List Char
  | [] => (acc, [])
  | c :: rest =>
    if isDigitChar c then parseDigitsAux (10 * acc + (c.toNat - 48)) rest
    else (acc, c :: rest)

/-- Parse a nonempty run of decimal digits. -/
def parseNat1 : List Char → Option (Nat × List Char)
  | [] => none
  | c :: rest =>
    if isDigitChar c then some (parseDigitsAux 0 (c :: rest)) else none

/-- Parse one serialized binding value. -/
def parseJVal : List Char → Option (JVal × List Char)
  | [] => none
  | c :: rest =>
    if c = '"' then (parseStrAux rest).map (fun p => (JVal.jstr (String.mk p.1), p.2))
    else if c = 't' then
      match rest with
      | 'r' :: 'u' :: 'e' :: r => some (JVal.jbool true, r)
      | _ => none
    else if c = 'f' then
      match rest with
      | 'a' :: 'l' :: 's' :: 'e' :: r => some (JVal.jbool false, r)
      | _ => none
    else if c = 'n' then
      match rest with
      | 'u' :: 'l' :: 'l' :: r => some (JVal.jnull, r)
      | _ => none
    else if c = '-' then
      (parseNat1 rest).map (fun p => (JVal.jnum (-(p.1 : Int)), p.2))
    else if isDigitChar c then
      (parseNat1 (c :: rest)).map (fun p => (JVal.jnum (p.1 : Int), p.2))
    else none

/-- Parse the elements of a nonempty serialized array, up to and including the
closing bracket (fuel bounds the element count). -/
def parseArrAux : Nat → List Char → Option (List JVal × List Char)
  | 0, _ => none
  | fuel + 1, cs =>
    (parseJVal cs).bind fun p =>
      match p.2 with
      | ',' :: rest => (parseArrAux fuel rest).map (fun q => (p.1 :: q.1, q.2))
      | ']' :: rest => some ([p.1], rest)
      | _ => none

/-- Parse a serialized array. -/
def parseArr : List Char → Option (List JVal × List Char)
  | [] => none
  | c :: rest =>
    if c = '[' then
      match rest with
      | c2 :: rest2 =>
        if c2 = ']' then some ([], rest2) else parseArrAux rest.length rest
      | [] => none
    else none

/-- Consume an exact literal prefix. -/
def stripLit : List Char → List Char → Option (List Char)
  | [], cs => some cs
  | _ :: _, [] => none
  | l :: ls, c :: cs => if c = l then stripLit ls cs else none

/-- Decoder for the image of `encodePayload`. -/
def decodePayload (cs : List Char) : Option (String × List JVal × String) :=
  (stripLit "\x7b\"sql\":\"".data cs).bind fun c1 =>
  (parseStrAux c1).bind fun p1 =>
  (stripLit ",\"bindings\":".data p1.2).bind fun c2 =>
  (parseArr c2).bind fun p2 =>
  (stripLit ",\"dialect\":\"".data p2.2).bind fun c3 =>
  (parseStrAux c3).bind fun p3 =>
  match p3.2 with
  | ['\x7d'] => some (String.mk p1.1, p2.1, String.mk p3.1)
  | _ => none

/-- Little-endian-first numeric value of a byte list (verification artifact
for digest counting). -/
def bytesToNat : List Nat → Nat
  | [] => 0
  | b :: rest => b + 256 * bytesToNat rest

/-- The hash input used by `generateCacheKey` for an all-`a` SQL string of the
given length, with no bindings and an empty dialect. -/
def inputOfNat (n : Nat) : List Nat :=
  encodeUtf8 (encodePayload (String.mk (List.replicate n 'a')) [] "")

/-! ## Identifier cleanliness

Placeholder counting in compiled SQL is meaningful when the identifiers fed to
the compiler do not themselves contain the placeholder character (`?` for
sqlite, `$` for pg); the source interpolates identifiers verbatim. -/

abbrev CleanPred (c : Char) (p : Pred α) : Prop :=
  countChar c p.column = 0 ∧ countChar c p.operator = 0 ∧ countChar c p.boolean = 0

abbrev CleanJoin (c : Char) (j : Join) : Prop :=
  countChar c j.table = 0 ∧ countChar c j.first = 0 ∧ countChar c j.operator = 0
    ∧ countChar c j.second = 0

abbrev CleanOrder (c : Char) (o : OrderTerm) : Prop :=
  countChar c o.column = 0 ∧ countChar c o.direction.toUpper = 0

abbrev CleanSelect (c : Char) (tableName : String) (st : SelectStmts α) : Prop :=
  countChar c tableName = 0
    ∧ (∀ s ∈ st.select, countChar c s = 0)
    ∧ (∀ j ∈ st.join, CleanJoin c j)
    ∧ (∀ p ∈ st.whereList, CleanPred c p)
    ∧ (∀ g ∈ st.groupBy, countChar c g = 0)
    ∧ (∀ p ∈ st.having, CleanPred c p)
    ∧ (∀ o ∈ st.orderBy, CleanOrder c o)

/-! # Lemmas and claim theorems -/

/-! ## String helper lemmas -/

theorem countChar_append (c : Char) (a b : String) :
    countChar c (a ++ b) = countChar c a + countChar c b := by
  simp [countChar, String.data_append]

theorem countChar_joinSep (c : Char) (sep : String) (hsep : countChar c sep = 0) :
    ∀ L : List String, countChar c (joinSep sep L) = (L.map (countChar c)).sum := by
  intro L
  induction L with
  | nil => simp [joinSep, countChar]
  | cons x L ih =>
    cases L with
    | nil => simp [joinSep]
    | cons y L' =>
      simp only [joinSep, countChar_append, hsep, List.map_cons, List.sum_cons] at ih ⊢
      omega

theorem joinSep_split (sep x : String) :
    ∀ L : List String, x ∈ L → ∃ a b, joinSep sep L = a ++ x ++ b := by
  intro L
  induction L with
  | nil => intro h; cases h
  | cons y L ih =>
    intro h
    rcases List.mem_cons.mp h with rfl | hx
    · cases L with
      | nil =>
        exact ⟨"", "", by simp [joinSep, String.append_empty, String.empty_append]⟩
      | cons z L' =>
        exact ⟨"", sep ++ joinSep sep (z :: L'), by
          simp [joinSep, String.empty_append, String.append_assoc]⟩
    · cases L with
      | nil => cases hx
      | cons z L' =>
        obtain ⟨a, b, hab⟩ := ih hx
        exact ⟨y ++ sep ++ a, b, by simp [joinSep, hab, String.append_assoc]⟩

theorem sum_of_ones : ∀ (l : List Nat), (∀ x ∈ l, x = 1) → l.sum = l.length := by
  intro l
  induction l with
  | nil => simp
  | cons x l ih =>
    intro h
    simp only [List.sum_cons, List.length_cons, h x (List.mem_cons_self x l),
      ih (fun y hy => h y (List.mem_cons_of_mem x hy))]
    omega

theorem digitChar_toNat (d : Nat) (h : d < 10) : (digitChar d).toNat = 48 + d := by
  have hv : Nat.isValidChar (48 + d) := Or.inl (by omega)
  have h2 : 48 + d < 4294967296 := by omega
  simp only [digitChar, Char.ofNat, hv, dif_pos, Char.toNat, Char.ofNatAux,
    UInt32.toNat, UInt32.ofNatCore, BitVec.toNat, BitVec.ofNat, Fin.ofNat]
  simp [Nat.mod_eq_of_lt h2]

theorem natDecAux_digits :
    ∀ (fuel n : Nat) (c : Char), c ∈ natDecAux fuel n → ∃ d < 10, c = digitChar d := by
  intro fuel
  induction fuel with
  | zero => intro n c h; simp [natDecAux] at h
  | succ fuel ih =>
    intro n c h
    simp only [natDecAux] at h
    split at h
    · next hn =>
      simp only [List.mem_singleton] at h
      exact ⟨n, hn, h⟩
    · rcases List.mem_append.mp h with h1 | h1
      · exact ih _ _ h1
      · simp only [List.mem_singleton] at h1
        exact ⟨n % 10, Nat.mod_lt _ (by omega), h1⟩

theorem countChar_natDec (c : Char) (hc : c.toNat < 48 ∨ 57 < c.toNat) (n : Nat) :
    countChar c (natDec n) = 0 := by
  simp only [countChar, natDec, List.count_eq_zero]
  intro h
  obtain ⟨d, hd, rfl⟩ := natDecAux_digits _ _ _ h
  have := digitChar_toNat d hd
  omega

/-! ## C10: clear() resets the cache and its statistics -/

/-- C10: after `clear()` the primary store and the secondary table index are
both empty and every statistics counter is reset, so `getStats` reports
hits = misses = sets = invalidations = total = 0, hitRate = 0 and size = 0
(the configured capacity is kept). -/
theorem clear_resets_cache_and_stats (V : Type) (c : QueryCache V) :
    c.clear.store = [] ∧ c.clear.tableMap = []
      ∧ c.clear.getStats = ⟨0, 0, 0, 0, 0, 0, 0, c.maxSize⟩ := by
  refine ⟨rfl, rfl, ?_⟩
  simp [QueryCache.clear, QueryCache.getStats]

/-! ## C9: OFFSET without LIMIT -/

theorem sqlite_predLoop_snd {α : Type} (ps : List (Pred α)) :
    (Sqlite.predLoop ps).2 = ps.map Pred.value := by
  cases ps <;> simp [Sqlite.predLoop]

/-- C9 (amended): in the sqlite compiler OFFSET is rendered inside the LIMIT
branch, so with no limit set the offset field is entirely ignored — the
compiled output is identical to the one with offset cleared, and the bindings
are exactly the WHERE then HAVING values.  (The pg compiler renders OFFSET
independently of LIMIT; see the counterexample.) -/
theorem sqlite_offset_ignored_without_limit {α : Type} (t : String)
    (st : SelectStmts α) (h : st.limit = none) :
    Sqlite.compileSelect t st = Sqlite.compileSelect t { st with offset := none }
      ∧ (Sqlite.compileSelect t st).bindings
          = st.whereList.map Pred.value ++ st.having.map Pred.value := by
  constructor
  · simp [Sqlite.compileSelect, h]
  · simp [Sqlite.compileSelect, h, sqlite_predLoop_snd]

theorem sqlite_offset_ignored_without_limit_witness :
    SelectStmts.limit ({ offset := some (7 : Int) } : SelectStmts Int) = none
      ∧ Sqlite.compileSelect "t" ({ offset := some (7 : Int) } : SelectStmts Int)
          = Sqlite.compileSelect "t"
              ({ ({ offset := some (7 : Int) } : SelectStmts Int) with offset := none })
      ∧ (Sqlite.compileSelect "t" ({ offset := some (7 : Int) } : SelectStmts Int)).bindings
          = [] :=
  ⟨rfl,
    (sqlite_offset_ignored_without_limit "t" { offset := some (7 : Int) } rfl).1,
    (sqlite_offset_ignored_without_limit "t" { offset := some (7 : Int) } rfl).2⟩

/-- C9 counterexample: for the pg compiler, a SelectSpec with an offset and no
limit still compiles to text containing an OFFSET clause, and the offset value
is passed as a parameter — refuting the claim for the cited pg compileSelect. -/
theorem pg_offset_without_limit_emits_clause :
    (Pg.compileSelect "t" { offset := some (5 : Int) }).sql
        = "SELECT * FROM t OFFSET $1"
      ∧ (Pg.compileSelect "t" { offset := some (5 : Int) }).bindings = [5] := by
  constructor <;> rfl

/-! ## C4: fail-fast on malformed input -/

/-- C4 (amended): the empty row set on INSERT and the empty column-value map
on UPDATE abort with a descriptive error before any SQL text exists (the
result type carries either an error or a full compile result, never partial
text); an unknown logical column type, however, raises no error — the cited
compileColumn silently renders the column with the fallback type
`VARCHAR(255)`. -/
theorem compile_failfast_behaviour {α : Type} :
    (∀ t : String,
        Sqlite.compileInsert (α := α) t [] = .error "Aucune donnée à insérer")
      ∧ (∀ (t : String) (wh : List (Pred α)),
          Sqlite.compileUpdate t [] wh = .error "Aucune donnée à mettre à jour")
      ∧ (∀ col : MysqlSchema.Column, MysqlSchema.DATA_TYPES col.type = none →
          ∃ restParts, MysqlSchema.compileColumn col
            = joinSep " " (col.name :: "VARCHAR(255)" :: restParts)) := by
  refine ⟨fun t => rfl, fun t wh => rfl, fun col h => ?_⟩
  refine ⟨(if col.autoIncrement then ["AUTO_INCREMENT"] else [])
    ++ (if ¬col.nullable then ["NOT NULL"] else [])
    ++ (match col.defaultValue with
        | .undef => []
        | .null => ["DEFAULT NULL"]
        | .str s => ["DEFAULT " ++ MysqlSchema.sqc ++ s ++ MysqlSchema.sqc]
        | .other r => ["DEFAULT " ++ r]), ?_⟩
  simp [MysqlSchema.compileColumn, h]

theorem compile_failfast_behaviour_witness :
    MysqlSchema.DATA_TYPES "wibble" = none ∧
      (Sqlite.compileInsert (α := Int) "t" [] = .error "Aucune donnée à insérer"
        ∧ (∃ restParts,
            MysqlSchema.compileColumn { name := "c", type := "wibble" }
              = joinSep " " ("c" :: "VARCHAR(255)" :: restParts))) :=
  ⟨by decide,
    (compile_failfast_behaviour (α := Int)).1 "t",
    (compile_failfast_behaviour (α := Int)).2.2
      { name := "c", type := "wibble" } (by decide)⟩

/-! ## JSON round-trip lemmas -/

theorem string_mk_data (s : String) : String.mk s.data = s := by cases s; rfl

theorem stripLit_append :
    ∀ (lit r : List Char), stripLit lit (lit ++ r) = some r := by
  intro lit
  induction lit with
  | nil => intro r; rfl
  | cons l ls ih => intro r; simp [stripLit, ih]

theorem hexVal_hexDigitChar : ∀ n < 16, hexVal (hexDigitChar n) = n := by decide

theorem escL_cons (c : Char) (cs : List Char) :
    escL (c :: cs) = escChar c ++ escL cs := by
  simp [escL]

theorem parseStrAux_round :
    ∀ (s r : List Char), parseStrAux (escL s ++ '"' :: r) = some (s, r) := by
  intro s
  induction s with
  | nil =>
    intro r
    show parseStrAux ([] ++ '"' :: r) = some ([], r)
    rw [parseStrAux.eq_def]
    simp
  | cons c s ih =>
    intro r
    rw [escL_cons, List.append_assoc]
    by_cases h1 : c = '"'
    · have he : escChar c = ['\\', '"'] := by
        unfold escChar
        rw [if_pos h1]
      rw [he, parseStrAux.eq_def]
      simp [ih, h1]
    · by_cases h2 : c = '\\'
      · have he : escChar c = ['\\', '\\'] := by
          unfold escChar
          rw [if_neg h1, if_pos h2]
        rw [he, parseStrAux.eq_def]
        simp [ih, h2]
      · by_cases h3 : c = Char.ofNat 8
        · have he : escChar c = ['\\', 'b'] := by
            unfold escChar
            rw [if_neg h1, if_neg h2, if_pos h3]
          rw [he, parseStrAux.eq_def]
          simp [ih, h3]
        · by_cases h4 : c = Char.ofNat 9
          · have he : escChar c = ['\\', 't'] := by
              unfold escChar
              rw [if_neg h1, if_neg h2, if_neg h3, if_pos h4]
            rw [he, parseStrAux.eq_def]
            simp [ih, h4]
          · by_cases h5 : c = Char.ofNat 10
            · have he : escChar c = ['\\', 'n'] := by
                unfold escChar
                rw [if_neg h1, if_neg h2, if_neg h3, if_neg h4, if_pos h5]
              rw [he, parseStrAux.eq_def]
              simp [ih, h5]
            · by_cases h6 : c = Char.ofNat 12
              · have he : escChar c = ['\\', 'f'] := by
                  unfold escChar
                  rw [if_neg h1, if_neg h2, if_neg h3, if_neg h4, if_neg h5,
                    if_pos h6]
                rw [he, parseStrAux.eq_def]
                simp [ih, h6]
              · by_cases h7 : c = Char.ofNat 13
                · have he : escChar c = ['\\', 'r'] := by
                    unfold escChar
                    rw [if_neg h1, if_neg h2, if_neg h3, if_neg h4, if_neg h5,
                      if_neg h6, if_pos h7]
                  rw [he, parseStrAux.eq_def]
                  simp [ih, h7]
                · by_cases h8 : c.toNat < 32
                  · have he : escChar c = ['\\', 'u', '0', '0',
                        hexDigitChar (c.toNat / 16), hexDigitChar (c.toNat % 16)] := by
                      unfold escChar
                      rw [if_neg h1, if_neg h2, if_neg h3, if_neg h4, if_neg h5,
                        if_neg h6, if_neg h7, if_pos h8]
                    rw [he]
                    have hdiv : c.toNat / 16 < 16 := by omega
                    have hmod : c.toNat % 16 < 16 := Nat.mod_lt _ (by omega)
                    have hval : 16 * hexVal (hexDigitChar (c.toNat / 16))
                        + hexVal (hexDigitChar (c.toNat % 16)) = c.toNat := by
                      rw [hexVal_hexDigitChar _ hdiv, hexVal_hexDigitChar _ hmod]
                      omega
                    rw [parseStrAux.eq_def]
                    simp [ih, hval, Char.ofNat_toNat]
                  · have he : escChar c = [c] := by
                      unfold escChar
                      rw [if_neg h1, if_neg h2, if_neg h3, if_neg h4, if_neg h5,
                        if_neg h6, if_neg h7, if_neg h8]
                    rw [he, parseStrAux.eq_def]
                    simp [ih, h1, h2]

theorem natDecAux_ne_nil :
    ∀ (fuel n : Nat), n < fuel → natDecAux fuel n ≠ [] := by
  intro fuel
  induction fuel with
  | zero => intro n h; omega
  | succ fuel _ =>
    intro n _
    simp only [natDecAux]
    split <;> simp

theorem isDigitChar_digitChar (d : Nat) (h : d < 10) :
    isDigitChar (digitChar d) = true := by
  have := digitChar_toNat d h
  simp only [isDigitChar, Bool.and_eq_true, decide_eq_true_eq]
  omega

theorem natDecAux_all_digits (fuel n : Nat) :
    ∀ c ∈ natDecAux fuel n, isDigitChar c = true := by
  intro c hc
  obtain ⟨d, hd, rfl⟩ := natDecAux_digits fuel n c hc
  exact isDigitChar_digitChar d hd

theorem parseDigitsAux_append (ds : List Char) :
    ∀ (acc : Nat) (r : List Char), (∀ c ∈ ds, isDigitChar c = true) →
      parseDigitsAux acc (ds ++ r)
        = parseDigitsAux (ds.foldl (fun a c => 10 * a + (c.toNat - 48)) acc) r := by
  induction ds with
  | nil => intro acc r _; rfl
  | cons c ds ih =>
    intro acc r h
    have hc := h c (List.mem_cons_self c ds)
    simp only [List.cons_append, parseDigitsAux, hc, if_true, List.foldl_cons]
    exact ih _ r (fun x hx => h x (List.mem_cons_of_mem c hx))

theorem parseDigitsAux_stop (acc : Nat) (r : List Char) (h : headDigit r = false) :
    parseDigitsAux acc r = (acc, r) := by
  cases r with
  | nil => rfl
  | cons c rest =>
    simp only [headDigit] at h
    simp [parseDigitsAux, h]

theorem foldl_digits_natDecAux :
    ∀ (fuel n acc : Nat), n < fuel →
      (natDecAux fuel n).foldl (fun a c => 10 * a + (c.toNat - 48)) acc
        = acc * 10 ^ (natDecAux fuel n).length + n := by
  intro fuel
  induction fuel with
  | zero => intro n acc h; omega
  | succ fuel ih =>
    intro n acc hn
    by_cases h10 : n < 10
    · simp only [natDecAux, h10, if_true, List.foldl_cons, List.foldl_nil,
        List.length_singleton]
      rw [digitChar_toNat n h10]
      ring_nf
      omega
    · have hrec : n / 10 < fuel := by
        have := Nat.div_lt_self (by omega : 0 < n) (by omega : 1 < 10)
        omega
      simp only [natDecAux, h10, if_false, List.foldl_append, List.foldl_cons,
        List.foldl_nil, List.length_append, List.length_singleton]
      rw [ih (n / 10) acc hrec]
      rw [digitChar_toNat (n % 10) (Nat.mod_lt _ (by omega))]
      have hdm : 10 * (n / 10) + n % 10 = n := Nat.div_add_mod n 10
      have hpow : 10 ^ ((natDecAux fuel (n / 10)).length + 1)
          = 10 ^ (natDecAux fuel (n / 10)).length * 10 := pow_succ 10 _
      rw [hpow]
      ring_nf
      omega

theorem parseNat1_round (n : Nat) (r : List Char) (h : headDigit r = false) :
    parseNat1 (natDecAux (n + 1) n ++ r) = some (n, r) := by
  cases hds : natDecAux (n + 1) n with
  | nil => exact absurd hds (natDecAux_ne_nil (n + 1) n (by omega))
  | cons c cs =>
    have hdig : ∀ x ∈ natDecAux (n + 1) n, isDigitChar x = true :=
      natDecAux_all_digits (n + 1) n
    have hc : isDigitChar c = true := by
      apply hdig
      rw [hds]
      exact List.mem_cons_self c cs
    simp only [hds, List.cons_append, parseNat1, hc, if_true]
    have happ := parseDigitsAux_append (c :: cs) 0 r (by
      intro x hx
      apply hdig
      rw [hds]
      exact hx)
    rw [List.cons_append] at happ
    rw [← hds] at happ
    rw [happ, parseDigitsAux_stop _ _ h,
      foldl_digits_natDecAux (n + 1) n 0 (by omega)]
    simp

theorem digit_facts {c : Char} (h : isDigitChar c = true) :
    c ≠ '"' ∧ c ≠ 't' ∧ c ≠ 'f' ∧ c ≠ 'n' ∧ c ≠ '-' ∧ c ≠ ']' ∧ c ≠ ',' := by
  simp only [isDigitChar, Bool.and_eq_true, decide_eq_true_eq] at h
  refine ⟨?_, ?_, ?_, ?_, ?_, ?_, ?_⟩ <;>
    (intro he; rw [he] at h; revert h; decide)

theorem parseJVal_round (v : JVal) (r : List Char) (h : headDigit r = false) :
    parseJVal (encJVal v ++ r) = some (v, r) := by
  cases v with
  | jstr s =>
    show parseJVal (('"' :: (escL s.data ++ ['"'])) ++ r) = _
    simp only [List.cons_append, List.append_assoc, List.singleton_append]
    simp [parseJVal, parseStrAux_round, string_mk_data]
  | jbool bv =>
    cases bv with
    | true => simp [encJVal, parseJVal]
    | false => simp [encJVal, parseJVal]
  | jnull => simp [encJVal, parseJVal]
  | jnum n =>
    by_cases hneg : n < 0
    · have he : encJVal (.jnum n) = '-' :: natDecAux (n.natAbs + 1) n.natAbs := by
        simp [encJVal, intDecChars, hneg]
      rw [he]
      simp only [List.cons_append, parseJVal]
      norm_num
      rw [parseNat1_round _ _ h]
      simp only [Option.map_some']
      have hn2 : -((n.natAbs : Int)) = n := by omega
      simp [hn2]
      rw [abs_of_neg hneg, neg_neg]
    · have he : encJVal (.jnum n) = natDecAux (n.toNat + 1) n.toNat := by
        simp [encJVal, intDecChars, hneg]
      rw [he]
      cases hds : natDecAux (n.toNat + 1) n.toNat with
      | nil => exact absurd hds (natDecAux_ne_nil _ _ (by omega))
      | cons c cs =>
        have hc : isDigitChar c = true := by
          apply natDecAux_all_digits (n.toNat + 1) n.toNat
          rw [hds]
          exact List.mem_cons_self c cs
        obtain ⟨hq, ht, hf, hn, hm, _, _⟩ := digit_facts hc
        simp only [List.cons_append, parseJVal, if_neg hq, if_neg ht, if_neg hf,
          if_neg hn, if_neg hm, hc, if_true]
        rw [← List.cons_append, ← hds, parseNat1_round _ _ h]
        simp only [Option.map_some']
        have hn2 : ((n.toNat : Int)) = n := by omega
        rw [hn2]

theorem encJVal_head (v : JVal) :
    ∃ c cs, encJVal v = c :: cs ∧ c ≠ ']' := by
  cases v with
  | jstr s => exact ⟨'"', _, rfl, by decide⟩
  | jbool bv => cases bv with
    | true => exact ⟨'t', _, rfl, by decide⟩
    | false => exact ⟨'f', _, rfl, by decide⟩
  | jnull => exact ⟨'n', _, rfl, by decide⟩
  | jnum n =>
    by_cases hneg : n < 0
    · exact ⟨'-', natDecAux (n.natAbs + 1) n.natAbs,
        by simp [encJVal, intDecChars, hneg], by decide⟩
    · cases hds : natDecAux (n.toNat + 1) n.toNat with
      | nil => exact absurd hds (natDecAux_ne_nil _ _ (by omega))
      | cons c cs =>
        have hc : isDigitChar c = true := by
          apply natDecAux_all_digits (n.toNat + 1) n.toNat
          rw [hds]
          exact List.mem_cons_self c cs
        exact ⟨c, cs, by simp [encJVal, intDecChars, hneg, hds],
          (digit_facts hc).2.2.2.2.2.1⟩

theorem encJVal_ne_nil (v : JVal) : encJVal v ≠ [] := by
  obtain ⟨c, cs, he, _⟩ := encJVal_head v
  rw [he]
  simp

theorem joinLists_length_ge :
    ∀ bs : List JVal, bs ≠ [] →
      bs.length ≤ (joinLists [','] (bs.map encJVal)).length := by
  intro bs
  induction bs with
  | nil => intro h; cases h rfl
  | cons v bs ih =>
    intro _
    cases bs with
    | nil =>
      simp only [List.map_cons, List.map_nil, joinLists, List.length_singleton]
      have := encJVal_ne_nil v
      cases hv : encJVal v with
      | nil => exact absurd hv this
      | cons c cs => simp [hv]
    | cons v2 bs2 =>
      have hih := ih (by simp)
      simp only [List.map_cons, joinLists, List.length_append, List.length_cons] at hih ⊢
      have := encJVal_ne_nil v
      cases hv : encJVal v with
      | nil => exact absurd hv this
      | cons c cs =>
        simp only [hv, List.length_cons]
        omega

theorem parseArrAux_round :
    ∀ (bs : List JVal) (fuel : Nat) (r : List Char), bs ≠ [] →
      bs.length ≤ fuel →
      parseArrAux fuel (joinLists [','] (bs.map encJVal) ++ ']' :: r)
        = some (bs, r) := by
  intro bs
  induction bs with
  | nil => intro fuel r h; cases h rfl
  | cons v bs ih =>
    intro fuel r _ hlen
    cases fuel with
    | zero => simp at hlen
    | succ fuel =>
      cases bs with
      | nil =>
        simp only [List.map_cons, List.map_nil, joinLists, parseArrAux]
        rw [parseJVal_round v (']' :: r) (by simp [headDigit, isDigitChar])]
        rfl
      | cons v2 bs2 =>
        simp only [List.map_cons, joinLists, parseArrAux]
        rw [List.append_assoc, List.append_assoc, List.singleton_append]
        rw [parseJVal_round v _ (by simp [headDigit, isDigitChar])]
        rw [Option.some_bind]
        have hih := ih fuel r (by simp) (by
          simp only [List.length_cons] at hlen ⊢
          omega)
        simp only [List.map_cons, joinLists] at hih
        simp [hih]

theorem parseArr_round (bs : List JVal) (r : List Char) :
    parseArr (encArr bs ++ r) = some (bs, r) := by
  cases bs with
  | nil =>
    show parseArr (('[' :: ([] ++ [']'])) ++ r) = _
    rfl
  | cons v bs2 =>
    have hne : (v :: bs2 : List JVal) ≠ [] := by simp
    obtain ⟨c0, cs0, hv, hc0⟩ := encJVal_head v
    have hjoin : joinLists [','] ((v :: bs2).map encJVal)
        = c0 :: (cs0 ++ (match bs2 with
          | [] => []
          | _ :: _ => [','] ++ joinLists [','] (bs2.map encJVal))) := by
      cases bs2 with
      | nil => simp [joinLists, hv]
      | cons v2 bs3 => simp [joinLists, hv, List.append_assoc]
    have hrest : encArr (v :: bs2) ++ r
        = '[' :: (joinLists [','] ((v :: bs2).map encJVal) ++ ']' :: r) := by
      simp [encArr, List.append_assoc]
    rw [hrest]
    have hlen : (v :: bs2).length
        ≤ (joinLists [','] ((v :: bs2).map encJVal) ++ ']' :: r).length := by
      have := joinLists_length_ge (v :: bs2) hne
      simp only [List.length_append, List.length_cons] at this ⊢
      omega
    have hroundA := parseArrAux_round (v :: bs2)
      (joinLists [','] ((v :: bs2).map encJVal) ++ ']' :: r).length r hne hlen
    rw [hjoin] at hroundA ⊢
    simp only [parseArr, if_pos rfl, List.cons_append]
    rw [if_neg hc0]
    rw [← List.cons_append] at hroundA
    exact hroundA

theorem decodePayload_round (s : String) (b : List JVal) (d : String) :
    decodePayload (encodePayload s b d) = some (s, b, d) := by
  have hassoc : encodePayload s b d
      = "\x7b\"sql\":\"".data ++ (escL s.data ++ '"' ::
          (",\"bindings\":".data ++ (encArr b ++ (",\"dialect\":\"".data ++
            (escL d.data ++ '"' :: ['\x7d']))))) := by
    simp [encodePayload, List.append_assoc]
  rw [hassoc]
  unfold decodePayload
  rw [stripLit_append, Option.some_bind, parseStrAux_round, Option.some_bind]
  rw [stripLit_append, Option.some_bind, parseArr_round, Option.some_bind]
  rw [stripLit_append, Option.some_bind, parseStrAux_round, Option.some_bind]
  simp [string_mk_data]

/-! ## Character and extractor lemmas -/

theorem char_toNat_ofNat (n : Nat) (h : n < 55296) : (Char.ofNat n).toNat = n := by
  have hv : Nat.isValidChar n := Or.inl h
  have h2 : n < 4294967296 := by omega
  simp only [Char.ofNat, hv, dif_pos, Char.toNat, Char.ofNatAux, UInt32.toNat,
    UInt32.ofNatCore, BitVec.toNat, BitVec.ofNat, Fin.ofNat]
  simp [Nat.mod_eq_of_lt h2]

theorem char_eq_of_toNat {c d : Char} (h : c.toNat = d.toNat) : c = d := by
  rw [← Char.ofNat_toNat c, ← Char.ofNat_toNat d, h]

theorem charLower_toNat (c : Char) :
    (charLower c).toNat
      = if 65 ≤ c.toNat ∧ c.toNat ≤ 90 then c.toNat + 32 else c.toNat := by
  unfold charLower
  split
  · next h => exact char_toNat_ofNat _ (by omega)
  · rfl

theorem charLower_eq_self {c : Char} (h : ¬(65 ≤ c.toNat ∧ c.toNat ≤ 90)) :
    charLower c = c := by
  unfold charLower
  exact if_neg h

theorem isWordChar_iff (c : Char) :
    isWordChar c = true
      ↔ (97 ≤ c.toNat ∧ c.toNat ≤ 122) ∨ (65 ≤ c.toNat ∧ c.toNat ≤ 90)
        ∨ (48 ≤ c.toNat ∧ c.toNat ≤ 57) ∨ c.toNat = 95 := by
  simp only [isWordChar, Bool.or_eq_true, Bool.and_eq_true, decide_eq_true_eq,
    beq_iff_eq]
  tauto

theorem isWordChar_charLower {c : Char} (h : isWordChar c = true) :
    isWordChar (charLower c) = true ∧ charLower (charLower c) = charLower c := by
  have hn := charLower_toNat c
  rcases (isWordChar_iff c).mp h with h1 | h1 | h1 | h1
  all_goals {
    constructor
    · rw [isWordChar_iff, hn]
      split <;> omega
    · refine charLower_eq_self ?_
      rw [hn]
      split <;> omega }

theorem mem_stripQuoteChars {c : Char} {tok : List Char}
    (h : c ∈ stripQuoteChars tok) : c ∈ tok :=
  (List.mem_filter.mp h).1

theorem mem_asSplit {c : Char} : ∀ {l : List Char}, c ∈ asSplit l → c ∈ l := by
  intro l
  induction l with
  | nil => intro h; simp [asSplit] at h
  | cons c₀ rest ih =>
    intro h
    simp only [asSplit] at h
    split at h
    · cases h
    · rcases List.mem_cons.mp h with rfl | h2
      · exact List.mem_cons_self _ _
      · exact List.mem_cons_of_mem _ (ih h2)

theorem mem_trimBoth {c : Char} {l : List Char} (h : c ∈ trimBoth l) : c ∈ l := by
  unfold trimBoth at h
  rw [List.mem_reverse] at h
  have h2 := (List.dropWhile_sublist (l := (l.dropWhile isSpaceChar).reverse)
    (p := isSpaceChar)).subset h
  rw [List.mem_reverse] at h2
  exact (List.dropWhile_sublist (l := l) (p := isSpaceChar)).subset h2

theorem splitOnChar_ne_nil (sep : Char) : ∀ l : List Char, splitOnChar sep l ≠ [] := by
  intro l
  cases l with
  | nil => simp [splitOnChar]
  | cons c rest =>
    simp only [splitOnChar]
    split <;> simp

theorem mem_splitOnChar (sep : Char) :
    ∀ (l : List Char) (seg : List Char), seg ∈ splitOnChar sep l →
      ∀ c ∈ seg, c ∈ l ∧ c ≠ sep := by
  intro l
  induction l with
  | nil =>
    intro seg hseg c hc
    simp only [splitOnChar, List.mem_singleton] at hseg
    subst hseg
    cases hc
  | cons c₀ rest ih =>
    intro seg hseg c hc
    simp only [splitOnChar] at hseg
    split at hseg
    · next hc₀ =>
      rcases List.mem_cons.mp hseg with rfl | hseg2
      · cases hc
      · obtain ⟨hm, hne⟩ := ih seg hseg2 c hc
        exact ⟨List.mem_cons_of_mem _ hm, hne⟩
    · next hc₀ =>
      rcases List.mem_cons.mp hseg with rfl | hseg2
      · rcases List.mem_cons.mp hc with rfl | hc2
        · exact ⟨List.mem_cons_self _ _, hc₀⟩
        · have hhd : (splitOnChar sep rest).headD [] ∈ splitOnChar sep rest := by
            cases hr : splitOnChar sep rest with
            | nil => exact absurd hr (splitOnChar_ne_nil sep rest)
            | cons s ss => simp
          obtain ⟨hm, hne⟩ := ih _ hhd c hc2
          exact ⟨List.mem_cons_of_mem _ hm, hne⟩
      · have htl : seg ∈ splitOnChar sep rest :=
          (List.tail_sublist (splitOnChar sep rest)).subset hseg2
        obtain ⟨hm, hne⟩ := ih seg htl c hc
        exact ⟨List.mem_cons_of_mem _ hm, hne⟩

theorem mem_getD_splitOnChar {sep c : Char} {l : List Char} {i : Nat}
    (h : c ∈ (splitOnChar sep l).getD i []) : c ∈ l ∧ c ≠ sep := by
  rcases Nat.lt_or_ge i (splitOnChar sep l).length with hi | hi
  · have hseg : (splitOnChar sep l).getD i [] ∈ splitOnChar sep l := by
      rw [List.getD_eq_getElem _ _ hi]
      exact List.getElem_mem hi
    exact mem_splitOnChar sep l _ hseg c h
  · rw [List.getD_eq_default _ _ hi] at h
    cases h

theorem processTok_chars (tok : List Char)
    (htok : ∀ c ∈ tok, isWordDot c = true) :
    ∀ c ∈ processTok tok, isWordChar c = true ∧ charLower c = c := by
  intro c hc
  unfold processTok at hc
  obtain ⟨c', hc', rfl⟩ := List.mem_map.mp hc
  have hct2 : c' ∈ trimBoth (asSplit (stripQuoteChars tok)) ∧ c' ≠ '.' := by
    split at hc'
    · next hdot => exact mem_getD_splitOnChar hc'
    · next hdot => exact ⟨hc', fun he => hdot (he ▸ hc')⟩
  have h1 : c' ∈ stripQuoteChars tok := mem_asSplit (mem_trimBoth hct2.1)
  have h2 : c' ∈ tok := mem_stripQuoteChars h1
  have hwd : isWordDot c' = true := htok c' h2
  have hwc : isWordChar c' = true := by
    simp only [isWordDot, Bool.or_eq_true, beq_iff_eq] at hwd
    rcases hwd with hwd | hwd
    · exact hwd
    · exact absurd (char_eq_of_toNat (d := '.') hwd) hct2.2
  exact isWordChar_charLower hwc

/-! ## Scan soundness -/

theorem stripKw_decomp :
    ∀ (kw cs r : List Char), stripKw kw cs = some r →
      ∃ kp, cs = kp ++ r ∧ kp.map charLower = kw := by
  intro kw
  induction kw with
  | nil =>
    intro cs r h
    simp only [stripKw, Option.some.injEq] at h
    exact ⟨[], by simp [h]⟩
  | cons k ks ih =>
    intro cs r h
    cases cs with
    | nil => simp [stripKw] at h
    | cons c cs' =>
      simp only [stripKw] at h
      split at h
      · next hcl =>
        obtain ⟨kp, hkp, hmap⟩ := ih cs' r h
        exact ⟨c :: kp, by simp [hkp], by simp [hmap, hcl]⟩
      · cases h

theorem drop_length_takeWhile (p : Char → Bool) :
    ∀ l : List Char, l.drop (l.takeWhile p).length = l.dropWhile p := by
  intro l
  induction l with
  | nil => simp
  | cons c rest ih =>
    by_cases hp : p c
    · simp [List.takeWhile_cons, List.dropWhile_cons, hp, ih]
    · simp [List.takeWhile_cons, List.dropWhile_cons, hp]

theorem tryMatch_decomp (kw cs tok rest : List Char)
    (h : tryMatch kw cs = some (tok, rest)) :
    ∃ kp ws, cs = kp ++ ws ++ tok ++ rest ∧ kp.map charLower = kw
      ∧ ws ≠ [] ∧ (∀ c ∈ ws, isSpaceChar c = true)
      ∧ tok ≠ [] ∧ (∀ c ∈ tok, isWordDot c = true) := by
  simp only [tryMatch] at h
  cases hsk : stripKw kw cs with
  | none => rw [hsk] at h; cases h
  | some r1 =>
    rw [hsk, Option.some_bind] at h
    obtain ⟨kp, hkp, hmap⟩ := stripKw_decomp kw cs r1 hsk
    by_cases hws : (r1.takeWhile isSpaceChar).length = 0
    · rw [if_pos hws] at h
      cases h
    · rw [if_neg hws] at h
      by_cases htok : ((r1.drop (r1.takeWhile isSpaceChar).length).takeWhile
          isWordDot).length = 0
      · rw [if_pos htok] at h
        cases h
      · rw [if_neg htok] at h
        simp only [Option.some.injEq, Prod.mk.injEq] at h
        obtain ⟨htok2, hrest⟩ := h
        refine ⟨kp, r1.takeWhile isSpaceChar, ?_, hmap, ?_, ?_, ?_, ?_⟩
        · rw [hkp]
          have hr1 : r1 = r1.takeWhile isSpaceChar
              ++ (r1.drop (r1.takeWhile isSpaceChar).length) := by
            rw [drop_length_takeWhile]
            exact (List.takeWhile_append_dropWhile ..).symm
          have hr2 : r1.drop (r1.takeWhile isSpaceChar).length
              = tok ++ rest := by
            rw [← htok2, ← hrest]
            rw [drop_length_takeWhile isSpaceChar r1,
              drop_length_takeWhile isWordDot (r1.dropWhile isSpaceChar)]
            exact (List.takeWhile_append_dropWhile ..).symm
          conv_lhs => rw [hr1, hr2]
          simp [List.append_assoc]
        · intro he
          rw [he] at hws
          simp at hws
        · intro c hc
          exact List.mem_takeWhile_imp hc
        · intro he
          exact htok (by rw [htok2, he]; rfl)
        · intro c hc
          rw [← htok2] at hc
          exact List.mem_takeWhile_imp hc

theorem scanKw_sound (kw : List Char) :
    ∀ (fuel : Nat) (cs tok : List Char), tok ∈ scanKw kw fuel cs →
      ∃ pre kp ws post, cs = pre ++ kp ++ ws ++ tok ++ post
        ∧ kp.map charLower = kw
        ∧ ws ≠ [] ∧ (∀ c ∈ ws, isSpaceChar c = true)
        ∧ tok ≠ [] ∧ (∀ c ∈ tok, isWordDot c = true) := by
  intro fuel
  induction fuel with
  | zero => intro cs tok h; simp [scanKw] at h
  | succ fuel ih =>
    intro cs tok h
    cases cs with
    | nil => simp [scanKw] at h
    | cons c rest =>
      simp only [scanKw] at h
      cases hm : tryMatch kw (c :: rest) with
      | some p =>
        rw [hm] at h
        rcases List.mem_cons.mp h with rfl | h2
        · obtain ⟨kp, ws, hdec, hmap, hws, hwsall, htok, htokall⟩ :=
            tryMatch_decomp kw (c :: rest) p.1 p.2 hm
          exact ⟨[], kp, ws, p.2, by simpa using hdec, hmap, hws, hwsall, htok,
            htokall⟩
        · obtain ⟨pre, kp, ws, post, hdec, hmap, hws, hwsall, htok, htokall⟩ :=
            ih p.2 tok h2
          obtain ⟨kp0, ws0, hdec0, _, _, _, _, _⟩ :=
            tryMatch_decomp kw (c :: rest) p.1 p.2 hm
          refine ⟨kp0 ++ ws0 ++ p.1 ++ pre, kp, ws, post, ?_, hmap, hws, hwsall,
            htok, htokall⟩
          rw [hdec0, hdec]
          simp [List.append_assoc]
      | none =>
        rw [hm] at h
        obtain ⟨pre, kp, ws, post, hdec, hmap, hws, hwsall, htok, htokall⟩ :=
          ih rest tok h
        exact ⟨c :: pre, kp, ws, post, by simp [hdec], hmap, hws, hwsall, htok,
          htokall⟩

/-! ## Result-set fold lemmas -/

theorem addTok_fold_nodup :
    ∀ (toks : List (List Char)) (acc : List String),
      acc.Nodup → (toks.foldl addTok acc).Nodup := by
  intro toks
  induction toks with
  | nil => intro acc h; simpa using h
  | cons tok toks ih =>
    intro acc h
    have hstep : (addTok acc tok).Nodup := by
      simp only [addTok]
      split
      · exact h
      · split
        · exact h
        · next hmem =>
          rw [← List.concat_eq_append]
          exact List.Nodup.concat hmem h
    simpa using ih _ hstep

theorem addTok_fold_mem :
    ∀ (toks : List (List Char)) (acc : List String) (x : String),
      x ∈ toks.foldl addTok acc →
      x ∈ acc ∨ ∃ tok ∈ toks, x = String.mk (processTok tok)
        ∧ (processTok tok).length ≠ 0 := by
  intro toks
  induction toks with
  | nil => intro acc x h; exact Or.inl (by simpa using h)
  | cons tok toks ih =>
    intro acc x h
    rcases ih (addTok acc tok) x (by simpa using h) with h2 | ⟨tok2, ht2, hx2⟩
    · simp only [addTok] at h2
      split at h2
      · exact Or.inl h2
      · next hlen =>
        split at h2
        · exact Or.inl h2
        · rcases List.mem_append.mp h2 with h3 | h3
          · exact Or.inl h3
          · refine Or.inr ⟨tok, List.mem_cons_self _ _, ?_, hlen⟩
            exact List.mem_singleton.mp h3
    · exact Or.inr ⟨tok2, List.mem_cons_of_mem _ ht2, hx2⟩

theorem extract_fold_nodup (fuel : Nat) (cs : List Char) :
    ∀ (kws : List String) (acc : List String), acc.Nodup →
      (kws.foldl (fun acc kw => (scanKw kw.data fuel cs).foldl addTok acc)
        acc).Nodup := by
  intro kws
  induction kws with
  | nil => intro acc h; simpa using h
  | cons kw kws ih =>
    intro acc h
    simpa using ih _ (addTok_fold_nodup _ acc h)

theorem extract_fold_mem (fuel : Nat) (cs : List Char) :
    ∀ (kws : List String) (acc : List String) (x : String),
      x ∈ kws.foldl (fun acc kw => (scanKw kw.data fuel cs).foldl addTok acc) acc →
      x ∈ acc ∨ ∃ kw ∈ kws, ∃ tok ∈ scanKw kw.data fuel cs,
        x = String.mk (processTok tok) ∧ (processTok tok).length ≠ 0 := by
  intro kws
  induction kws with
  | nil => intro acc x h; exact Or.inl (by simpa using h)
  | cons kw kws ih =>
    intro acc x h
    rcases ih _ x (by simpa using h) with h2 | ⟨kw2, hkw2, htok⟩
    · rcases addTok_fold_mem _ acc x h2 with h3 | ⟨tok, htok, hx⟩
      · exact Or.inl h3
      · exact Or.inr ⟨kw, List.mem_cons_self _ _, tok, htok, hx⟩
    · exact Or.inr ⟨kw2, List.mem_cons_of_mem _ hkw2, htok⟩

/-! ## C8: the table extractor -/

/-- C8 (amended): the extractor returns a duplicate-free set whose every
element is nonempty, consists of lower-cased word characters only (hence has no
quoting punctuation, no whitespace and no alias suffix), and is the processed
form of an identifier token (a nonempty `[\w.]` run) that follows one of the
keywords FROM/JOIN/INTO/UPDATE/TABLE (case-insensitively) and at least one
whitespace character in the input; the processing lower-cases the token and,
when it is dot-qualified, keeps the segment after the FIRST dot (for
`schema.table` this is `table`, but for deeper qualification it is the second
segment, not the final one — see the counterexample). -/
theorem extract_tables_properties (sql : String) :
    (extractTablesFromQuery sql).Nodup
      ∧ ∀ t ∈ extractTablesFromQuery sql,
          t.data ≠ []
          ∧ (∀ c ∈ t.data, isWordChar c = true ∧ charLower c = c)
          ∧ ∃ kw ∈ tableKeywords, ∃ pre kp ws tok post,
              sql.data = pre ++ kp ++ ws ++ tok ++ post
              ∧ kp.map charLower = kw.data
              ∧ ws ≠ [] ∧ (∀ c ∈ ws, isSpaceChar c = true)
              ∧ tok ≠ [] ∧ (∀ c ∈ tok, isWordDot c = true)
              ∧ t = String.mk (processTok tok) := by
  constructor
  · exact extract_fold_nodup _ _ tableKeywords [] List.nodup_nil
  · intro t ht
    rcases extract_fold_mem sql.data.length sql.data tableKeywords [] t ht with
      h | ⟨kw, hkw, tok, htok, hx, hlen⟩
    · cases h
    · obtain ⟨pre, kp, ws, post, hdec, hmap, hws, hwsall, htokne, htokall⟩ :=
        scanKw_sound kw.data sql.data.length sql.data tok htok
      subst hx
      refine ⟨?_, ?_, kw, hkw, pre, kp, ws, tok, post, hdec, hmap, hws, hwsall,
        htokne, htokall, rfl⟩
      · intro he
        apply hlen
        have : processTok tok = [] := he
        simp [this]
      · intro c hc
        exact processTok_chars tok htokall c hc

theorem extract_tables_properties_witness :
    "users" ∈ extractTablesFromQuery "SELECT * FROM users WHERE id = 1"
      ∧ (extractTablesFromQuery "SELECT * FROM users WHERE id = 1").Nodup
      ∧ ("users" : String).data ≠ []
      ∧ (∀ c ∈ ("users" : String).data, isWordChar c = true ∧ charLower c = c) :=
  ⟨by decide, (extract_tables_properties "SELECT * FROM users WHERE id = 1").1,
    ((extract_tables_properties "SELECT * FROM users WHERE id = 1").2 "users"
      (by decide)).1,
    ((extract_tables_properties "SELECT * FROM users WHERE id = 1").2 "users"
      (by decide)).2.1⟩

/-- C8 counterexample: on a schema-qualified identifier with more than one
dot, the extractor takes `split('.')[1]` — the segment after the first dot —
not the final segment: `db.sch.tbl` yields `sch`, while the final segment is
`tbl`. -/
theorem extract_tables_not_final_segment :
    extractTablesFromQuery "SELECT id FROM db.sch.tbl" = ["sch"]
      ∧ ("sch" : String) ≠ "tbl" := by
  constructor
  · rfl
  · decide

/-! ## Association-list lemmas for the cache -/

theorem lookupA_eq_none {β : Type} (k : String) :
    ∀ m : List (String × β), lookupA k m = none ↔ k ∉ m.map Prod.fst := by
  intro m
  induction m with
  | nil => simp [lookupA]
  | cons kv rest ih =>
    obtain ⟨k₂, v⟩ := kv
    by_cases h : k₂ = k
    · subst h
      simp [lookupA]
    · simp [lookupA, h, ih, Ne.symm h]

theorem lookupA_setA {β : Type} (k k' : String) (v : β) :
    ∀ m : List (String × β),
      lookupA k' (setA k v m) = if k = k' then some v else lookupA k' m := by
  intro m
  induction m with
  | nil => simp [setA, lookupA]
  | cons kv rest ih =>
    obtain ⟨k₂, u⟩ := kv
    by_cases h : k₂ = k
    · subst h
      by_cases h2 : k₂ = k'
      · subst h2
        simp [setA, lookupA]
      · simp [setA, lookupA, h2]
    · by_cases h2 : k₂ = k'
      · subst h2
        have : k ≠ k₂ := fun he => h he.symm
        simp [setA, h, lookupA, this]
      · simp [setA, h, lookupA, h2, ih]

theorem mem_keys_setA {β : Type} (k x : String) (v : β) :
    ∀ m : List (String × β),
      x ∈ (setA k v m).map Prod.fst → x = k ∨ x ∈ m.map Prod.fst := by
  intro m
  induction m with
  | nil => simp [setA]
  | cons kv rest ih =>
    obtain ⟨k₂, u⟩ := kv
    by_cases h : k₂ = k
    · subst h
      simp [setA]
    · simp only [setA, h, if_false, List.map_cons, List.mem_cons]
      intro hx
      rcases hx with hx | hx
      · tauto
      · rcases ih hx with hx | hx <;> tauto

theorem keyNodup_setA {β : Type} (k : String) (v : β) :
    ∀ m : List (String × β), keyNodup m → keyNodup (setA k v m) := by
  intro m
  induction m with
  | nil => intro _; simp [setA, keyNodup]
  | cons kv rest ih =>
    obtain ⟨k₂, u⟩ := kv
    intro hnd
    simp only [keyNodup, List.map_cons, List.nodup_cons] at hnd
    by_cases h : k₂ = k
    · subst h
      simpa [setA, keyNodup] using hnd
    · simp only [setA, h, if_false, keyNodup, List.map_cons, List.nodup_cons]
      refine ⟨fun hmem => ?_, ih hnd.2⟩
      rcases mem_keys_setA k k₂ v rest hmem with he | hmem2
      · exact h he
      · exact hnd.1 hmem2

theorem mem_keys_deleteA {β : Type} (k x : String) :
    ∀ m : List (String × β),
      x ∈ ((deleteA k m).2).map Prod.fst → x ∈ m.map Prod.fst := by
  intro m
  induction m with
  | nil => simp [deleteA]
  | cons kv rest ih =>
    obtain ⟨k₂, v⟩ := kv
    by_cases h : k₂ = k
    · subst h
      simp [deleteA]
      tauto
    · simp only [deleteA, h, if_false, List.map_cons, List.mem_cons]
      intro hx
      rcases hx with hx | hx
      · tauto
      · exact Or.inr (ih hx)

theorem keyNodup_deleteA {β : Type} (k : String) :
    ∀ m : List (String × β), keyNodup m → keyNodup (deleteA k m).2 := by
  intro m
  induction m with
  | nil => intro _; simp [deleteA, keyNodup]
  | cons kv rest ih =>
    obtain ⟨k₂, v⟩ := kv
    intro hnd
    simp only [keyNodup, List.map_cons, List.nodup_cons] at hnd
    by_cases h : k₂ = k
    · subst h
      simpa [deleteA, keyNodup] using hnd.2
    · simp only [deleteA, h, if_false, keyNodup, List.map_cons, List.nodup_cons]
      exact ⟨fun hmem => hnd.1 (mem_keys_deleteA k k₂ rest hmem), ih hnd.2⟩

theorem lookupA_deleteA_none {β : Type} (k k' : String) :
    ∀ m : List (String × β),
      lookupA k m = none → lookupA k ((deleteA k' m).2) = none := by
  intro m
  induction m with
  | nil => simp [deleteA]
  | cons kv rest ih =>
    obtain ⟨k₂, v⟩ := kv
    intro h
    by_cases h2 : k₂ = k
    · subst h2
      simp [lookupA] at h
    · simp only [lookupA, h2, if_false] at h
      by_cases h3 : k₂ = k'
      · simpa [deleteA, h3] using h
      · simp [deleteA, h3, lookupA, h2, ih h]

theorem lookupA_deleteA_self {β : Type} (k : String) :
    ∀ m : List (String × β), keyNodup m → lookupA k ((deleteA k m).2) = none := by
  intro m
  induction m with
  | nil => simp [deleteA, lookupA]
  | cons kv rest ih =>
    obtain ⟨k₂, v⟩ := kv
    intro hnd
    simp only [keyNodup, List.map_cons, List.nodup_cons] at hnd
    by_cases h : k₂ = k
    · subst h
      simp only [deleteA, if_pos rfl]
      exact (lookupA_eq_none k₂ rest).mpr hnd.1
    · simp [deleteA, h, lookupA, ih hnd.2]

theorem deleteA_count {β : Type} (k : String) :
    ∀ m : List (String × β),
      (if (deleteA k m).1 then 1 else 0) + ((deleteA k m).2).length = m.length := by
  intro m
  induction m with
  | nil => simp [deleteA]
  | cons kv rest ih =>
    obtain ⟨k₂, v⟩ := kv
    by_cases h : k₂ = k
    · simp [deleteA, h]
      omega
    · by_cases hb : (deleteA k rest).1 = true
      · simp only [hb, if_true] at ih
        simp only [deleteA, h, if_false, hb, if_true, List.length_cons]
        omega
      · simp only [hb, if_false] at ih
        simp only [deleteA, h, if_false, hb, List.length_cons]
        omega

theorem eraseKeyA_lookup_other {β : Type} (t t' : String) (h : t' ≠ t) :
    ∀ m : List (String × β), lookupA t' (eraseKeyA t m) = lookupA t' m := by
  intro m
  induction m with
  | nil => simp [eraseKeyA]
  | cons kv rest ih =>
    obtain ⟨k₂, v⟩ := kv
    by_cases h2 : k₂ = t
    · subst h2
      simp [eraseKeyA, lookupA, Ne.symm h]
    · simp [eraseKeyA, h2, lookupA, ih]

theorem eraseKeyA_lookup_none {β : Type} (t t' : String) :
    ∀ m : List (String × β),
      lookupA t m = none → lookupA t (eraseKeyA t' m) = none := by
  intro m
  induction m with
  | nil => simp [eraseKeyA]
  | cons kv rest ih =>
    obtain ⟨k₂, v⟩ := kv
    intro h
    by_cases h2 : k₂ = t
    · subst h2
      simp [lookupA] at h
    · simp only [lookupA, h2, if_false] at h
      by_cases h3 : k₂ = t'
      · simpa [eraseKeyA, h3] using h
      · simp [eraseKeyA, h3, lookupA, h2, ih h]

theorem mem_keys_eraseKeyA {β : Type} (t x : String) :
    ∀ m : List (String × β),
      x ∈ (eraseKeyA t m).map Prod.fst → x ∈ m.map Prod.fst := by
  intro m
  induction m with
  | nil => simp [eraseKeyA]
  | cons kv rest ih =>
    obtain ⟨k₂, v⟩ := kv
    by_cases h : k₂ = t
    · subst h
      simp [eraseKeyA]
      tauto
    · simp only [eraseKeyA, h, if_false, List.map_cons, List.mem_cons]
      intro hx
      rcases hx with hx | hx
      · tauto
      · exact Or.inr (ih hx)

theorem keyNodup_eraseKeyA {β : Type} (t : String) :
    ∀ m : List (String × β), keyNodup m → keyNodup (eraseKeyA t m) := by
  intro m
  induction m with
  | nil => intro _; simp [eraseKeyA, keyNodup]
  | cons kv rest ih =>
    obtain ⟨k₂, v⟩ := kv
    intro hnd
    simp only [keyNodup, List.map_cons, List.nodup_cons] at hnd
    by_cases h : k₂ = t
    · subst h
      simpa [eraseKeyA, keyNodup] using hnd.2
    · simp only [eraseKeyA, h, if_false, keyNodup, List.map_cons, List.nodup_cons]
      exact ⟨fun hmem => hnd.1 (mem_keys_eraseKeyA t k₂ rest hmem), ih hnd.2⟩

theorem eraseKeyA_lookup_self {β : Type} (t : String) :
    ∀ m : List (String × β), keyNodup m → lookupA t (eraseKeyA t m) = none := by
  intro m
  induction m with
  | nil => simp [eraseKeyA, lookupA]
  | cons kv rest ih =>
    obtain ⟨k₂, v⟩ := kv
    intro hnd
    simp only [keyNodup, List.map_cons, List.nodup_cons] at hnd
    by_cases h : k₂ = t
    · subst h
      simp only [eraseKeyA, if_pos rfl]
      exact (lookupA_eq_none k₂ rest).mpr hnd.1
    · simp [eraseKeyA, h, lookupA, ih hnd.2]

/-! ## deleteKeys and invalidateStep lemmas -/

theorem deleteKeys_lookup_none {V : Type} (k : String) :
    ∀ (ks : List String) (p : Nat × List (String × V)),
      lookupA k p.2 = none → lookupA k (deleteKeys ks p).2 = none := by
  intro ks
  induction ks with
  | nil => intro p h; simpa [deleteKeys] using h
  | cons k0 ks ih =>
    intro p h
    have step : lookupA k ((deleteA k0 p.2).2) = none := lookupA_deleteA_none _ _ _ h
    simpa [deleteKeys] using ih _ step

theorem deleteKeys_keyNodup {V : Type} :
    ∀ (ks : List String) (p : Nat × List (String × V)),
      keyNodup p.2 → keyNodup (deleteKeys ks p).2 := by
  intro ks
  induction ks with
  | nil => intro p h; simpa [deleteKeys] using h
  | cons k0 ks ih =>
    intro p h
    simpa [deleteKeys] using ih _ (keyNodup_deleteA k0 p.2 h)

theorem deleteKeys_removes {V : Type} (k : String) :
    ∀ (ks : List String) (p : Nat × List (String × V)),
      keyNodup p.2 → k ∈ ks → lookupA k (deleteKeys ks p).2 = none := by
  intro ks
  induction ks with
  | nil => intro p _ h; cases h
  | cons k0 ks ih =>
    intro p hnd hk
    rcases List.mem_cons.mp hk with rfl | hk
    · have h0 : lookupA k ((deleteA k p.2).2) = none := lookupA_deleteA_self k p.2 hnd
      simpa [deleteKeys] using deleteKeys_lookup_none k ks _ h0
    · simpa [deleteKeys] using ih _ (keyNodup_deleteA k0 p.2 hnd) hk

theorem deleteKeys_count {V : Type} :
    ∀ (ks : List String) (p : Nat × List (String × V)),
      (deleteKeys ks p).1 + ((deleteKeys ks p).2).length = p.1 + p.2.length := by
  intro ks
  induction ks with
  | nil => intro p; simp [deleteKeys]
  | cons k0 ks ih =>
    intro p
    have hd := deleteA_count k0 p.2
    have hrec := ih (if (deleteA k0 p.2).1 then p.1 + 1 else p.1, (deleteA k0 p.2).2)
    simp only [deleteKeys, List.foldl_cons] at hrec ⊢
    by_cases hb : (deleteA k0 p.2).1 = true
    · simp [hb] at hd hrec ⊢
      omega
    · simp [hb] at hd hrec ⊢
      omega

theorem invalidateStep_store_none {V : Type} (k : String) (p : Nat × QueryCache V)
    (t : String) (h : lookupA k p.2.store = none) :
    lookupA k (invalidateStep p t).2.store = none := by
  unfold invalidateStep
  cases hlt : lookupA t p.2.tableMap with
  | none => simpa using h
  | some ks => simpa using deleteKeys_lookup_none k ks _ h

theorem invalidateStep_store_keyNodup {V : Type} (p : Nat × QueryCache V)
    (t : String) (h : keyNodup p.2.store) :
    keyNodup (invalidateStep p t).2.store := by
  unfold invalidateStep
  cases hlt : lookupA t p.2.tableMap with
  | none => simpa using h
  | some ks => simpa using deleteKeys_keyNodup ks _ h

theorem invalidateStep_tableMap_keyNodup {V : Type} (p : Nat × QueryCache V)
    (t : String) (h : keyNodup p.2.tableMap) :
    keyNodup (invalidateStep p t).2.tableMap := by
  unfold invalidateStep
  cases hlt : lookupA t p.2.tableMap with
  | none => simpa using h
  | some ks => simpa using keyNodup_eraseKeyA t _ h

theorem invalidateStep_tableMap_none {V : Type} (t' : String) (p : Nat × QueryCache V)
    (t : String) (h : lookupA t' p.2.tableMap = none) :
    lookupA t' (invalidateStep p t).2.tableMap = none := by
  unfold invalidateStep
  cases hlt : lookupA t p.2.tableMap with
  | none => simpa using h
  | some ks => simpa using eraseKeyA_lookup_none t' t _ h

theorem invalidate_fold_store_none {V : Type} (k : String) :
    ∀ (ts : List String) (p : Nat × QueryCache V),
      lookupA k p.2.store = none →
      lookupA k (ts.foldl invalidateStep p).2.store = none := by
  intro ts
  induction ts with
  | nil => intro p h; simpa using h
  | cons t ts ih =>
    intro p h
    simpa using ih _ (invalidateStep_store_none k p t h)

theorem invalidate_fold_tableMap_none {V : Type} (t' : String) :
    ∀ (ts : List String) (p : Nat × QueryCache V),
      lookupA t' p.2.tableMap = none →
      lookupA t' (ts.foldl invalidateStep p).2.tableMap = none := by
  intro ts
  induction ts with
  | nil => intro p h; simpa using h
  | cons t ts ih =>
    intro p h
    simpa using ih _ (invalidateStep_tableMap_none t' p t h)

theorem invalidate_fold_tableMap_keyNodup {V : Type} :
    ∀ (ts : List String) (p : Nat × QueryCache V),
      keyNodup p.2.tableMap →
      keyNodup (ts.foldl invalidateStep p).2.tableMap := by
  intro ts
  induction ts with
  | nil => intro p h; simpa using h
  | cons t ts ih =>
    intro p h
    simpa using ih _ (invalidateStep_tableMap_keyNodup p t h)

theorem invalidate_fold_table_erased {V : Type} :
    ∀ (ts : List String) (p : Nat × QueryCache V) (t : String),
      keyNodup p.2.tableMap → t ∈ ts →
      lookupA t (ts.foldl invalidateStep p).2.tableMap = none := by
  intro ts
  induction ts with
  | nil => intro p t _ h; cases h
  | cons t0 ts ih =>
    intro p t hnd hmem
    rcases List.mem_cons.mp hmem with rfl | hmem
    · have hstep : lookupA t (invalidateStep p t).2.tableMap = none := by
        unfold invalidateStep
        cases hlt : lookupA t p.2.tableMap with
        | none => simpa using hlt
        | some ks => simpa using eraseKeyA_lookup_self t _ hnd
      simpa using invalidate_fold_tableMap_none t ts _ hstep
    · simpa using ih _ t (invalidateStep_tableMap_keyNodup p t0 hnd) hmem

theorem invalidate_fold_key_removed {V : Type} :
    ∀ (ts : List String) (p : Nat × QueryCache V) (t : String) (ks : List String)
      (k : String),
      keyNodup p.2.store → t ∈ ts → k ∈ ks →
      (lookupA t p.2.tableMap = some ks ∨ lookupA k p.2.store = none) →
      lookupA k (ts.foldl invalidateStep p).2.store = none := by
  intro ts
  induction ts with
  | nil => intro p t ks k _ h; cases h
  | cons t0 ts ih =>
    intro p t ks k hnd hmem hkmem hinv
    have hnd' : keyNodup (invalidateStep p t0).2.store :=
      invalidateStep_store_keyNodup p t0 hnd
    rcases hinv with hent | habs
    · by_cases ht : t0 = t
      · subst ht
        have hstep : lookupA k (invalidateStep p t0).2.store = none := by
          unfold invalidateStep
          rw [hent]
          simpa using deleteKeys_removes k ks _ hnd hkmem
        simpa using invalidate_fold_store_none k ts _ hstep
      · rcases List.mem_cons.mp hmem with rfl | hmem2
        · exact absurd rfl ht
        · have hstep : lookupA t (invalidateStep p t0).2.tableMap = some ks
              ∨ lookupA k (invalidateStep p t0).2.store = none := by
            unfold invalidateStep
            cases hlt : lookupA t0 p.2.tableMap with
            | none => simpa using Or.inl hent
            | some ks0 =>
              left
              simpa using (eraseKeyA_lookup_other t0 t (Ne.symm ht) _).trans hent
          simpa using ih _ t ks k hnd' hmem2 hkmem hstep
    · have hstep : lookupA k (invalidateStep p t0).2.store = none :=
        invalidateStep_store_none k p t0 habs
      simpa using invalidate_fold_store_none k ts _ hstep

theorem invalidateStep_count {V : Type} (p : Nat × QueryCache V) (t : String) :
    (invalidateStep p t).1 + (invalidateStep p t).2.store.length
      = p.1 + p.2.store.length := by
  unfold invalidateStep
  cases hlt : lookupA t p.2.tableMap with
  | none => simp
  | some ks => simpa using deleteKeys_count ks (p.1, p.2.store)

theorem invalidate_fold_count {V : Type} :
    ∀ (ts : List String) (p : Nat × QueryCache V),
      (ts.foldl invalidateStep p).1 + (ts.foldl invalidateStep p).2.store.length
        = p.1 + p.2.store.length := by
  intro ts
  induction ts with
  | nil => intro p; simp
  | cons t ts ih =>
    intro p
    have h1 := invalidateStep_count p t
    have h2 := ih (invalidateStep p t)
    simp only [List.foldl_cons] at h2 ⊢
    omega

theorem invalidate_fold_store_shrinks {V : Type} :
    ∀ (ts : List String) (p : Nat × QueryCache V) (k : String),
      (lookupA k (ts.foldl invalidateStep p).2.store).isSome →
      (lookupA k p.2.store).isSome := by
  intro ts p k h
  by_contra habs
  have hnone : lookupA k p.2.store = none := Option.not_isSome_iff_eq_none.mp habs
  rw [invalidate_fold_store_none k ts p hnone] at h
  simp at h

theorem invalidate_fold_store_nodup {V : Type} :
    ∀ (ts : List String) (p : Nat × QueryCache V),
      keyNodup p.2.store → keyNodup (ts.foldl invalidateStep p).2.store := by
  intro ts
  induction ts with
  | nil => intro p h; simpa using h
  | cons t ts ih =>
    intro p h
    simpa using ih _ (invalidateStep_store_keyNodup p t h)

theorem invalidate_fold_entry_or_removed {V : Type} :
    ∀ (ts : List String) (p : Nat × QueryCache V) (t : String) (ks : List String)
      (k : String),
      keyNodup p.2.store → lookupA t p.2.tableMap = some ks → k ∈ ks →
      lookupA t (ts.foldl invalidateStep p).2.tableMap = some ks
        ∨ lookupA k (ts.foldl invalidateStep p).2.store = none := by
  intro ts
  induction ts with
  | nil => intro p t ks k _ hent _; exact Or.inl hent
  | cons t0 ts ih =>
    intro p t ks k hnd hent hkmem
    have hnd' : keyNodup (invalidateStep p t0).2.store :=
      invalidateStep_store_keyNodup p t0 hnd
    by_cases ht : t0 = t
    · subst ht
      have hstep : lookupA k (invalidateStep p t0).2.store = none := by
        unfold invalidateStep
        rw [hent]
        simpa using deleteKeys_removes k ks _ hnd hkmem
      exact Or.inr (by simpa using invalidate_fold_store_none k ts _ hstep)
    · have hstep : lookupA t (invalidateStep p t0).2.tableMap = some ks := by
        unfold invalidateStep
        cases hlt : lookupA t0 p.2.tableMap with
        | none => simpa using hent
        | some ks0 => simpa using (eraseKeyA_lookup_other t0 t (Ne.symm ht) _).trans hent
      simpa using ih _ t ks k hnd' hstep hkmem

/-! ## addKeyToTables lemmas -/

theorem addKeyToTables_preserve (key : String) :
    ∀ (ts : List String) (tm : List (String × List String)) (t : String)
      (ks : List String),
      lookupA t tm = some ks →
      ∃ ks', lookupA t (addKeyToTables key ts tm) = some ks' ∧ ∀ x ∈ ks, x ∈ ks' := by
  intro ts
  induction ts with
  | nil =>
    intro tm t ks h
    exact ⟨ks, by simpa [addKeyToTables] using h, fun x hx => hx⟩
  | cons t0 ts ih =>
    intro tm t ks h
    have hfold : addKeyToTables key (t0 :: ts) tm
        = addKeyToTables key ts
          (match lookupA t0 tm with
            | some ks0 => setA t0 (if key ∈ ks0 then ks0 else ks0 ++ [key]) tm
            | none => setA t0 [key] tm) := by
      simp [addKeyToTables]
    by_cases ht : t0 = t
    · subst ht
      rw [h] at hfold
      have hstep : lookupA t0 (setA t0 (if key ∈ ks then ks else ks ++ [key]) tm)
          = some (if key ∈ ks then ks else ks ++ [key]) := by
        rw [lookupA_setA]
        simp
      obtain ⟨ks', hl, hsub⟩ := ih _ t0 _ hstep
      refine ⟨ks', by rw [hfold]; exact hl, fun x hx => hsub x ?_⟩
      split
      · exact hx
      · exact List.mem_append_left _ hx
    · have hstep : lookupA t
          (match lookupA t0 tm with
            | some ks0 => setA t0 (if key ∈ ks0 then ks0 else ks0 ++ [key]) tm
            | none => setA t0 [key] tm) = some ks := by
        cases hlt : lookupA t0 tm with
        | some ks0 => rw [lookupA_setA, if_neg ht]; exact h
        | none => rw [lookupA_setA, if_neg ht]; exact h
      obtain ⟨ks', hl, hsub⟩ := ih _ t ks hstep
      exact ⟨ks', by rw [hfold]; exact hl, hsub⟩

theorem addKeyToTables_registers (key : String) :
    ∀ (ts : List String) (tm : List (String × List String)) (t : String),
      t ∈ ts →
      ∃ ks', lookupA t (addKeyToTables key ts tm) = some ks' ∧ key ∈ ks' := by
  intro ts
  induction ts with
  | nil => intro tm t h; cases h
  | cons t0 ts ih =>
    intro tm t hmem
    have hfold : addKeyToTables key (t0 :: ts) tm
        = addKeyToTables key ts
          (match lookupA t0 tm with
            | some ks0 => setA t0 (if key ∈ ks0 then ks0 else ks0 ++ [key]) tm
            | none => setA t0 [key] tm) := by
      simp [addKeyToTables]
    rcases List.mem_cons.mp hmem with rfl | hmem2
    · have hstep : ∃ s, lookupA t
          (match lookupA t tm with
            | some ks0 => setA t (if key ∈ ks0 then ks0 else ks0 ++ [key]) tm
            | none => setA t [key] tm) = some s ∧ key ∈ s := by
        cases hlt : lookupA t tm with
        | some ks0 =>
          refine ⟨if key ∈ ks0 then ks0 else ks0 ++ [key], ?_, ?_⟩
          · rw [lookupA_setA]; simp
          · split
            · next hin => exact hin
            · exact List.mem_append_right _ (List.mem_singleton_self key)
        | none =>
          refine ⟨[key], ?_, List.mem_singleton_self key⟩
          rw [lookupA_setA]; simp
      obtain ⟨s, hl, hkin⟩ := hstep
      obtain ⟨ks', hl', hsub⟩ := addKeyToTables_preserve key ts _ t s hl
      exact ⟨ks', by rw [hfold]; exact hl', hsub key hkin⟩
    · obtain ⟨ks', hl, hkin⟩ := ih _ t hmem2
      exact ⟨ks', by rw [hfold]; exact hl, hkin⟩

/-! ## C2: the cache index invariant under operation traces -/

/-- Preservation of the store-to-index invariant (plus store key uniqueness)
by every cache operation whose `set`s register at least one table. -/
theorem applyOp_inv {V : Type} (c : QueryCache V) (op : CacheOp V)
    (hop : setTablesNonempty op = true)
    (h : keyNodup c.store ∧ storeIndexed c) :
    keyNodup (applyOp c op).store ∧ storeIndexed (applyOp c op) := by
  cases op with
  | get s b d =>
    have hst : (applyOp c (.get s b d)).store = c.store
        ∧ (applyOp c (.get s b d)).tableMap = c.tableMap := by
      simp only [applyOp, QueryCache.get]
      cases lookupA (generateCacheKey s b d) c.store <;> simp
    refine ⟨hst.1 ▸ h.1, ?_⟩
    intro k hk
    rw [hst.2]
    exact h.2 k (hst.1 ▸ hk)
  | set s b v d ts =>
    cases v with
    | none => exact h
    | some v =>
      have hts : ts ≠ [] := by
        simp only [setTablesNonempty, Bool.not_eq_true'] at hop
        exact fun he => by simp [he] at hop
      constructor
      · exact keyNodup_setA _ _ _ h.1
      · intro k hk
        simp only [applyOp, QueryCache.set] at hk ⊢
        rw [lookupA_setA] at hk
        by_cases hkey : generateCacheKey s b d = k
        · obtain ⟨t, hts2⟩ := List.exists_mem_of_ne_nil ts hts
          obtain ⟨ks', hl, hkin⟩ :=
            addKeyToTables_registers (generateCacheKey s b d) ts c.tableMap t hts2
          exact ⟨t, ks', hl, hkey ▸ hkin⟩
        · rw [if_neg hkey] at hk
          obtain ⟨t, ks, hl, hkin⟩ := h.2 k hk
          obtain ⟨ks', hl', hsub⟩ :=
            addKeyToTables_preserve (generateCacheKey s b d) ts c.tableMap t ks hl
          exact ⟨t, ks', hl', hsub k hkin⟩
  | invalidate ts =>
    constructor
    · simpa [applyOp, QueryCache.invalidateByTables] using
        invalidate_fold_store_nodup ts (0, c) h.1
    · intro k hk
      simp only [applyOp, QueryCache.invalidateByTables] at hk ⊢
      have hbefore : (lookupA k c.store).isSome :=
        invalidate_fold_store_shrinks ts (0, c) k hk
      obtain ⟨t, ks, hl, hkin⟩ := h.2 k hbefore
      rcases invalidate_fold_entry_or_removed ts (0, c) t ks k h.1 hl hkin with
        hok | hnone
      · exact ⟨t, ks, hok, hkin⟩
      · rw [hnone] at hk
        simp at hk
  | evict k0 =>
    constructor
    · exact keyNodup_deleteA _ _ h.1
    · intro k hk
      simp only [applyOp] at hk ⊢
      have hbefore : (lookupA k c.store).isSome := by
        by_contra habs
        rw [lookupA_deleteA_none k k0 c.store
          (Option.not_isSome_iff_eq_none.mp habs)] at hk
        simp at hk
      exact h.2 k hbefore
  | clear =>
    refine ⟨by simp [applyOp, QueryCache.clear, keyNodup], ?_⟩
    intro k hk
    simp [applyOp, QueryCache.clear, lookupA] at hk

theorem runOps_inv {V : Type} :
    ∀ (ops : List (CacheOp V)) (c : QueryCache V),
      (∀ op ∈ ops, setTablesNonempty op = true) →
      keyNodup c.store ∧ storeIndexed c →
      keyNodup (runOps c ops).store ∧ storeIndexed (runOps c ops) := by
  intro ops
  induction ops with
  | nil => intro c _ h; simpa [runOps] using h
  | cons op ops ih =>
    intro c hops h
    have h1 := applyOp_inv c op (hops op (List.mem_cons_self op ops)) h
    simpa [runOps] using
      ih (applyOp c op) (fun o ho => hops o (List.mem_cons_of_mem op ho)) h1

/-- C2 (amended): after any sequence of get/put/invalidate/eviction/clear
operations from a fresh cache in which every put registers at least one table,
every fingerprint present in the primary store is reachable through the
secondary table index.  The converse direction of the claimed invariant is
false — a fingerprint reachable from the secondary index need not be in the
primary store (see the counterexample: invalidating one of two tables a
fingerprint is registered under removes it from the store but leaves it in the
other table's index set; autonomous eviction likewise never prunes the
index). -/
theorem cache_store_reachable_through_index {V : Type} (m : Nat)
    (ops : List (CacheOp V)) (h : ∀ op ∈ ops, setTablesNonempty op = true) :
    storeIndexed (runOps (emptyCache V m) ops) :=
  (runOps_inv ops (emptyCache V m) h
    ⟨by simp [emptyCache, keyNodup], fun k hk => by
      simp [emptyCache, lookupA] at hk⟩).2

theorem cache_store_reachable_through_index_witness :
    (∀ op ∈ ([CacheOp.set "SELECT a FROM t" [] (some "r") "pg" ["t"]] :
        List (CacheOp String)), setTablesNonempty op = true)
      ∧ storeIndexed (runOps (emptyCache String 500)
          [CacheOp.set "SELECT a FROM t" [] (some "r") "pg" ["t"]]) :=
  ⟨by decide,
    cache_store_reachable_through_index 500
      [CacheOp.set "SELECT a FROM t" [] (some "r") "pg" ["t"]] (by decide)⟩

/-- C2 counterexample: put a result under two tables, then invalidate one of
them.  The fingerprint is removed from the primary store, yet it remains
reachable through the other table's index set — the claimed invariant (every
fingerprint reachable from the secondary index is present in the primary
store) is violated by this two-operation sequence. -/
theorem cache_index_invariant_counterexample :
    lookupA "t2"
        (runOps (emptyCache String 500)
          [CacheOp.set "SELECT a FROM t1 JOIN t2" [] (some "rows") "pg" ["t1", "t2"],
           CacheOp.invalidate ["t1"]]).tableMap
      = some [generateCacheKey "SELECT a FROM t1 JOIN t2" [] "pg"]
      ∧ lookupA (generateCacheKey "SELECT a FROM t1 JOIN t2" [] "pg")
          (runOps (emptyCache String 500)
            [CacheOp.set "SELECT a FROM t1 JOIN t2" [] (some "rows") "pg" ["t1", "t2"],
             CacheOp.invalidate ["t1"]]).store
        = none := by
  constructor <;> rfl

/-! ## C3: invalidateByTables -/

/-- C3 (amended): for every table name passed to invalidateByTables, the
table's own index entry is dropped and every fingerprint registered under it is
removed from the primary store; the returned count is exactly the number of
primary-store entries removed (count plus remaining size equals the prior
size).  A fingerprint registered under further tables is, however, not removed
from those tables' index sets.  The scenario holds: after
put(fp1, rows, "users") then invalidate(["users"]), the count is 1 and a
subsequent get of fp1 is a miss. -/
theorem invalidate_by_tables_behaviour {V : Type} (c : QueryCache V)
    (ts : List String) (hnds : keyNodup c.store) (hndt : keyNodup c.tableMap) :
    (∀ t ∈ ts, lookupA t (c.invalidateByTables ts).2.tableMap = none)
      ∧ (∀ t ∈ ts, ∀ ks, lookupA t c.tableMap = some ks →
          ∀ k ∈ ks, lookupA k (c.invalidateByTables ts).2.store = none)
      ∧ (c.invalidateByTables ts).1 + (c.invalidateByTables ts).2.store.length
          = c.store.length
      ∧ ((QueryCache.get
            (((emptyCache String 500).set "SELECT a FROM users" [] (some "rows")
                "sqlite" ["users"]).2.invalidateByTables ["users"]).2
            "SELECT a FROM users" [] "sqlite").1 = none
          ∧ (((emptyCache String 500).set "SELECT a FROM users" [] (some "rows")
              "sqlite" ["users"]).2.invalidateByTables ["users"]).1 = 1) := by
  refine ⟨?_, ?_, ?_, by constructor <;> rfl⟩
  · intro t ht
    simpa [QueryCache.invalidateByTables] using
      invalidate_fold_table_erased ts (0, c) t hndt ht
  · intro t ht ks hks k hk
    simpa [QueryCache.invalidateByTables] using
      invalidate_fold_key_removed ts (0, c) t ks k hnds ht hk (Or.inl hks)
  · simpa [QueryCache.invalidateByTables] using invalidate_fold_count ts (0, c)

theorem invalidate_by_tables_behaviour_witness :
    (keyNodup (emptyCache String 500).store ∧ keyNodup (emptyCache String 500).tableMap)
      ∧ ((emptyCache String 500).invalidateByTables ["users"]).1
          + ((emptyCache String 500).invalidateByTables ["users"]).2.store.length
        = (emptyCache String 500).store.length
      ∧ (QueryCache.get
            (((emptyCache String 500).set "SELECT a FROM users" [] (some "rows")
                "sqlite" ["users"]).2.invalidateByTables ["users"]).2
            "SELECT a FROM users" [] "sqlite").1 = none :=
  ⟨⟨by decide, by decide⟩,
    (invalidate_by_tables_behaviour (emptyCache String 500) ["users"]
      (by decide) (by decide)).2.2.1,
    (invalidate_by_tables_behaviour (emptyCache String 500) ["users"]
      (by decide) (by decide)).2.2.2.1⟩

/-- C3 counterexample: a fingerprint registered under both `users` and
`orders` is, after `invalidate(["users"])`, removed from the primary store but
still present in the `orders` index set — it is not "removed from the
secondary index" as the claim states. -/
theorem invalidate_leaves_fingerprint_in_other_index :
    lookupA (generateCacheKey "SELECT b FROM users JOIN orders" [] "pg")
        ((((emptyCache String 500).set "SELECT b FROM users JOIN orders" []
            (some "r") "pg" ["users", "orders"]).2.invalidateByTables
          ["users"]).2).store = none
      ∧ lookupA "orders"
          ((((emptyCache String 500).set "SELECT b FROM users JOIN orders" []
              (some "r") "pg" ["users", "orders"]).2.invalidateByTables
            ["users"]).2).tableMap
        = some [generateCacheKey "SELECT b FROM users JOIN orders" [] "pg"] := by
  constructor <;> rfl

/-! ## C1: parameter order and placeholder count of compileSelect -/

theorem countQ_sqlite_predLoop {α : Type} (ps : List (Pred α))
    (h : ∀ p ∈ ps, CleanPred '?' p) :
    (((Sqlite.predLoop ps).1).map (countChar '?')).sum = ps.length := by
  cases ps with
  | nil => simp [Sqlite.predLoop]
  | cons p rest =>
    obtain ⟨h1, h2, _⟩ := h p (List.mem_cons_self p rest)
    have hhead : countChar '?' (p.column ++ " " ++ p.operator ++ " ?") = 1 := by
      simp only [countChar_append, h1, h2]
      decide
    have htail : ∀ x ∈ (rest.map
        (fun q => q.boolean ++ " " ++ q.column ++ " " ++ q.operator ++ " ?")).map
          (countChar '?'), x = 1 := by
      intro x hx
      simp only [List.map_map, List.mem_map, Function.comp] at hx
      obtain ⟨q, hq, rfl⟩ := hx
      obtain ⟨hc, ho, hb⟩ := h q (List.mem_cons_of_mem p hq)
      simp only [countChar_append, hc, ho, hb]
      decide
    simp only [Sqlite.predLoop, List.map_cons, List.sum_cons, hhead,
      sum_of_ones _ htail, List.length_map, List.length_cons]
    omega

theorem countD_pg_predLoop {α : Type} (start : Nat) (ps : List (Pred α))
    (h : ∀ p ∈ ps, CleanPred '$' p) :
    (((Pg.predLoop start ps).1).map (countChar '$')).sum = ps.length := by
  have hall : ∀ x ∈ ((Pg.predLoop start ps).1).map (countChar '$'), x = 1 := by
    intro x hx
    simp only [Pg.predLoop, List.map_map, List.mem_map, Function.comp] at hx
    obtain ⟨ip, hip, rfl⟩ := hx
    obtain ⟨hc, ho, hb⟩ := h ip.2 (List.snd_mem_of_mem_enum hip)
    have hnd : countChar '$' (natDec (start + ip.1)) = 0 :=
      countChar_natDec '$' (by decide) _
    simp only [Pg.predClause, countChar_append, hc, ho, hb, hnd]
    split
    · simp only [countChar]
      decide
    · simp only [countChar_append, hb]
      decide
  rw [sum_of_ones _ hall]
  simp [Pg.predLoop]

theorem countQ_sqlite_joinPart (j : Join) (hj : CleanJoin '?' j) :
    countChar '?' (Sqlite.joinPart j).1 = 0 := by
  obtain ⟨ht, hf, ho, hs⟩ := hj
  have hkw : countChar '?' (Sqlite.joinKeyword j.type).1 = 0 := by
    simp only [Sqlite.joinKeyword]
    split
    · decide
    · split
      · decide
      · split
        · decide
        · decide
  simp only [Sqlite.joinPart, countChar_append, hkw, ht, hf, ho, hs]
  decide

theorem countD_pg_joinPart (j : Join) (hj : CleanJoin '$' j) :
    countChar '$' (Pg.joinPart j) = 0 := by
  obtain ⟨ht, hf, ho, hs⟩ := hj
  have hkw : countChar '$' (Pg.joinKeyword j.type) = 0 := by
    simp only [Pg.joinKeyword]
    split
    · decide
    · split
      · decide
      · split
        · decide
        · decide
  simp only [Pg.joinPart, countChar_append, hkw, ht, hf, ho, hs]
  decide

/-- C1 (amended): for both cited compilers, parameters are appended in the
order WHERE values, then HAVING values, then LIMIT, then OFFSET (for sqlite
the OFFSET branch is nested under LIMIT); and for any SelectSpec with `k` WHERE
predicates, no HAVING predicates, both a LIMIT and an OFFSET set, and
placeholder-free identifiers, the compiled text contains exactly `k + 2`
placeholders and the parameter list is the `k` WHERE values followed by the
limit and the offset. -/
theorem select_params_clause_order {α : Type} :
    (∀ (t : String) (st : SelectStmts α),
        (Sqlite.compileSelect t st).bindings
          = st.whereList.map Pred.value ++ st.having.map Pred.value
            ++ (match st.limit with
                | some l => l :: (match st.offset with | some o => [o] | none => [])
                | none => []))
      ∧ (∀ (t : String) (st : SelectStmts α),
          (Pg.compileSelect t st).bindings
            = st.whereList.map Pred.value ++ st.having.map Pred.value
              ++ (match st.limit with | some l => [l] | none => [])
              ++ (match st.offset with | some o => [o] | none => []))
      ∧ (∀ (t : String) (st : SelectStmts α) (l o : α),
          st.having = [] → st.limit = some l → st.offset = some o →
          CleanSelect '?' t st →
          countChar '?' (Sqlite.compileSelect t st).sql = st.whereList.length + 2
            ∧ (Sqlite.compileSelect t st).bindings
                = st.whereList.map Pred.value ++ [l, o])
      ∧ (∀ (t : String) (st : SelectStmts α) (l o : α),
          st.having = [] → st.limit = some l → st.offset = some o →
          CleanSelect '$' t st →
          countChar '$' (Pg.compileSelect t st).sql = st.whereList.length + 2
            ∧ (Pg.compileSelect t st).bindings
                = st.whereList.map Pred.value ++ [l, o]) := by
  have hsq : ∀ (t : String) (st : SelectStmts α),
      (Sqlite.compileSelect t st).bindings
        = st.whereList.map Pred.value ++ st.having.map Pred.value
          ++ (match st.limit with
              | some l => l :: (match st.offset with | some o => [o] | none => [])
              | none => []) := by
    intro t st
    simp only [Sqlite.compileSelect, sqlite_predLoop_snd]
    cases st.limit <;> cases st.offset <;> rfl
  have hpg : ∀ (t : String) (st : SelectStmts α),
      (Pg.compileSelect t st).bindings
        = st.whereList.map Pred.value ++ st.having.map Pred.value
          ++ (match st.limit with | some l => [l] | none => [])
          ++ (match st.offset with | some o => [o] | none => []) := by
    intro t st
    simp only [Pg.compileSelect, Pg.predLoop]
    cases st.limit <;> cases st.offset <;> simp [List.append_assoc]
  refine ⟨hsq, hpg, ?_, ?_⟩
  · intro t st l o hhav hl ho hcl
    obtain ⟨hct, hcs, hcj, hcw, hcg, _, hco⟩ := hcl
    constructor
    · simp only [Sqlite.compileSelect, hhav, hl, ho]
      rw [countChar_joinSep _ _ (by decide)]
      simp only [List.map_append, List.sum_append, List.map_cons, List.sum_cons,
        List.map_nil, List.sum_nil]
      have h1 : countChar '?' (if st.select.length ≠ 0 then joinSep ", " st.select
          else "*") = 0 := by
        split
        · rw [countChar_joinSep _ _ (by decide)]
          exact List.sum_eq_zero (by
            intro x hx
            obtain ⟨s, hs, rfl⟩ := List.mem_map.mp hx
            exact hcs s hs)
        · decide
      have h2 : ((st.join.map (fun j => (Sqlite.joinPart j).1)).map
          (countChar '?')).sum = 0 := by
        refine List.sum_eq_zero ?_
        intro x hx
        simp only [List.map_map, List.mem_map, Function.comp] at hx
        obtain ⟨j, hj, rfl⟩ := hx
        exact countQ_sqlite_joinPart j (hcj j hj)
      have h3 : ((if st.whereList.length ≠ 0 then
            ["WHERE " ++ joinSep " " (Sqlite.predLoop st.whereList).1] else []).map
          (countChar '?')).sum = st.whereList.length := by
        split
        · next hne =>
          simp only [List.map_cons, List.map_nil, List.sum_cons, List.sum_nil,
            countChar_append]
          rw [countChar_joinSep _ _ (by decide), countQ_sqlite_predLoop _ hcw]
          have hwz : countChar '?' "WHERE " = 0 := by decide
          omega
        · next hne =>
          simp only [ne_eq, not_not, List.length_eq_zero] at hne
          simp [hne]
      have h4 : ((if st.groupBy.length ≠ 0 then
            ["GROUP BY " ++ joinSep ", " st.groupBy] else []).map
          (countChar '?')).sum = 0 := by
        split
        · simp only [List.map_cons, List.map_nil, List.sum_cons, List.sum_nil,
            countChar_append]
          rw [countChar_joinSep _ _ (by decide)]
          rw [List.sum_eq_zero (by
            intro x hx
            obtain ⟨s, hs, rfl⟩ := List.mem_map.mp hx
            exact hcg s hs)]
          decide
        · simp
      have h5 : ((if st.orderBy.length ≠ 0 then
            ["ORDER BY " ++ joinSep ", "
              (st.orderBy.map (fun o => o.column ++ " " ++ o.direction.toUpper))]
            else []).map (countChar '?')).sum = 0 := by
        split
        · simp only [List.map_cons, List.map_nil, List.sum_cons, List.sum_nil,
            countChar_append]
          rw [countChar_joinSep _ _ (by decide)]
          rw [List.sum_eq_zero (by
            intro x hx
            simp only [List.map_map, List.mem_map, Function.comp] at hx
            obtain ⟨ot, hot, rfl⟩ := hx
            obtain ⟨hoc, hod⟩ := hco ot hot
            simp only [countChar_append, hoc, hod]
            decide)]
          decide
        · simp
      rw [h1, h2, h3, h4, h5]
      have hft : countChar '?' ("FROM " ++ t) = 0 := by
        rw [countChar_append, hct]; decide
      rw [hft]
      have hsel : countChar '?' "SELECT" = 0 := by decide
      have hlim : countChar '?' "LIMIT ?" = 1 := by decide
      have hoff : countChar '?' "OFFSET ?" = 1 := by decide
      rw [hsel, hlim, hoff]
      have hh : ((if (([] : List (Pred α)).length ≠ 0) then
            ["HAVING " ++ joinSep " " (Sqlite.predLoop ([] : List (Pred α))).1]
          else []).map (countChar '?')).sum = 0 := by simp
      rw [hh]
      omega
    · simp [hsq t st, hhav, hl, ho]
  · intro t st l o hhav hl ho hcl
    obtain ⟨hct, hcs, hcj, hcw, hcg, _, hco⟩ := hcl
    constructor
    · simp only [Pg.compileSelect, hhav, hl, ho]
      rw [countChar_joinSep _ _ (by decide)]
      simp only [List.map_append, List.sum_append, List.map_cons, List.sum_cons,
        List.map_nil, List.sum_nil]
      have h1 : countChar '$' (if st.select.length ≠ 0 then joinSep ", " st.select
          else "*") = 0 := by
        split
        · rw [countChar_joinSep _ _ (by decide)]
          exact List.sum_eq_zero (by
            intro x hx
            obtain ⟨s, hs, rfl⟩ := List.mem_map.mp hx
            exact hcs s hs)
        · decide
      have h2 : ((st.join.map Pg.joinPart).map (countChar '$')).sum = 0 := by
        refine List.sum_eq_zero ?_
        intro x hx
        simp only [List.map_map, List.mem_map, Function.comp] at hx
        obtain ⟨j, hj, rfl⟩ := hx
        exact countD_pg_joinPart j (hcj j hj)
      have h3 : ((if st.whereList.length ≠ 0 then
            ["WHERE " ++ joinSep " " (Pg.predLoop 1 st.whereList).1] else []).map
          (countChar '$')).sum = st.whereList.length := by
        split
        · simp only [List.map_cons, List.map_nil, List.sum_cons, List.sum_nil,
            countChar_append]
          rw [countChar_joinSep _ _ (by decide), countD_pg_predLoop _ _ hcw]
          have hwz : countChar '$' "WHERE " = 0 := by decide
          omega
        · next hne =>
          simp only [ne_eq, not_not, List.length_eq_zero] at hne
          simp [hne]
      have h4 : ((if st.groupBy.length ≠ 0 then
            ["GROUP BY " ++ joinSep ", " st.groupBy] else []).map
          (countChar '$')).sum = 0 := by
        split
        · simp only [List.map_cons, List.map_nil, List.sum_cons, List.sum_nil,
            countChar_append]
          rw [countChar_joinSep _ _ (by decide)]
          rw [List.sum_eq_zero (by
            intro x hx
            obtain ⟨s, hs, rfl⟩ := List.mem_map.mp hx
            exact hcg s hs)]
          decide
        · simp
      have h5 : ((if st.orderBy.length ≠ 0 then
            ["ORDER BY " ++ joinSep ", "
              (st.orderBy.map (fun o => o.column ++ " " ++ o.direction.toUpper))]
            else []).map (countChar '$')).sum = 0 := by
        split
        · simp only [List.map_cons, List.map_nil, List.sum_cons, List.sum_nil,
            countChar_append]
          rw [countChar_joinSep _ _ (by decide)]
          rw [List.sum_eq_zero (by
            intro x hx
            simp only [List.map_map, List.mem_map, Function.comp] at hx
            obtain ⟨ot, hot, rfl⟩ := hx
            obtain ⟨hoc, hod⟩ := hco ot hot
            simp only [countChar_append, hoc, hod]
            decide)]
          decide
        · simp
      simp only [List.length_nil, Nat.add_zero]
      rw [h1, h2, h3, h4, h5]
      have hft : countChar '$' ("FROM " ++ t) = 0 := by
        rw [countChar_append, hct]; decide
      rw [hft]
      have hsel : countChar '$' "SELECT" = 0 := by decide
      have hlim : countChar '$' ("LIMIT $" ++ natDec (1 + st.whereList.length))
          = 1 := by
        rw [countChar_append, countChar_natDec '$' (by decide)]
        decide
      have hoff : countChar '$'
          ("OFFSET $" ++ natDec (1 + st.whereList.length + 1)) = 1 := by
        rw [countChar_append, countChar_natDec '$' (by decide)]
        decide
      rw [hsel, hlim, hoff]
      have hh : ((if ((0 : Nat) ≠ 0) then
            ["HAVING " ++ joinSep " " (Pg.predLoop (1 + st.whereList.length)
              ([] : List (Pred α))).1]
          else []).map (countChar '$')).sum = 0 := by simp
      rw [hh]
      omega
    · simp [hpg t st, hhav, hl, ho]

theorem select_params_clause_order_witness :
    (SelectStmts.having ({ whereList := [⟨"id", "=", (1 : Int), "AND"⟩], limit := some 1, offset := some 2 } : SelectStmts Int) = []
        ∧ CleanSelect '?' "users"
            ({ whereList := [⟨"id", "=", (1 : Int), "AND"⟩], limit := some 1, offset := some 2 } : SelectStmts Int))
      ∧ countChar '?' (Sqlite.compileSelect "users"
            ({ whereList := [⟨"id", "=", (1 : Int), "AND"⟩], limit := some 1, offset := some 2 } : SelectStmts Int)).sql = 1 + 2
      ∧ (Sqlite.compileSelect "users"
            ({ whereList := [⟨"id", "=", (1 : Int), "AND"⟩], limit := some 1, offset := some 2 } : SelectStmts Int)).bindings
          = [1, 1, 2] := by
  have h := (select_params_clause_order (α := Int)).2.2.1 "users"
    { whereList := [⟨"id", "=", (1 : Int), "AND"⟩], limit := some 1, offset := some 2 }
    1 2 rfl rfl rfl (by decide)
  exact ⟨⟨rfl, by decide⟩, h.1, h.2⟩

/-- C1 counterexample: a SelectSpec with no WHERE predicate (`k = 0`), one
HAVING predicate, and both LIMIT and OFFSET set compiles (sqlite dialect) to
text with 3 placeholders and a 3-element parameter list, not `k + 2 = 2` —
the claimed count ignores the HAVING parameters rendered between WHERE and
LIMIT. -/
theorem select_placeholder_count_having_counterexample :
    countChar '?' (Sqlite.compileSelect "t"
          ({ having := [⟨"c", "<", (3 : Int), "AND"⟩], limit := some 4, offset := some 5 } : SelectStmts Int)).sql = 3
      ∧ (Sqlite.compileSelect "t"
          ({ having := [⟨"c", "<", (3 : Int), "AND"⟩], limit := some 4, offset := some 5 } : SelectStmts Int)).bindings
          = [3, 4, 5]
      ∧ (SelectStmts.whereList ({ having := [⟨"c", "<", (3 : Int), "AND"⟩], limit := some 4, offset := some 5 } : SelectStmts Int)).length + 2
          = 2 := by
  refine ⟨by decide, rfl, rfl⟩

/-! ## C5: WHERE/HAVING predicate rendering -/

/-- C5: in the predicate loops of both the sqlite and the pg compileSelect
(the same loops render WHERE and HAVING), predicate 0 renders as
`column operator placeholder` with no leading connective, every predicate
`i > 0` renders as `connective column operator placeholder`, and the parameter
list is exactly the predicates' values in list order — one slot per
predicate. -/
theorem predicate_clause_rendering {α : Type} (ps : List (Pred α)) (p0 : Pred α)
    (h : ps.head? = some p0) (start : Nat) :
    ((Sqlite.predLoop ps).1)[0]? = some (p0.column ++ " " ++ p0.operator ++ " ?")
      ∧ (∀ i, i + 1 < ps.length →
          ((Sqlite.predLoop ps).1)[i + 1]? = (ps[i + 1]?).map
            (fun q => q.boolean ++ " " ++ q.column ++ " " ++ q.operator ++ " ?"))
      ∧ (Sqlite.predLoop ps).2 = ps.map Pred.value
      ∧ ((Pg.predLoop start ps).1)[0]?
          = some (p0.column ++ " " ++ p0.operator ++ " $" ++ natDec start)
      ∧ (∀ i, i + 1 < ps.length →
          ((Pg.predLoop start ps).1)[i + 1]? = (ps[i + 1]?).map
            (fun q => q.boolean ++ " " ++ q.column ++ " " ++ q.operator ++ " $"
                ++ natDec (start + (i + 1))))
      ∧ (Pg.predLoop start ps).2 = ps.map Pred.value := by
  cases ps with
  | nil => cases h
  | cons p rest =>
    have hp : p = p0 := by simpa using h
    subst hp
    refine ⟨by simp [Sqlite.predLoop], ?_, by simp [Sqlite.predLoop], ?_, ?_, rfl⟩
    · intro i _
      simp [Sqlite.predLoop, List.getElem?_map]
    · simp [Pg.predLoop, List.getElem?_enum, Pg.predClause, String.empty_append]
    · intro i _
      simp only [Pg.predLoop, List.getElem?_map, List.getElem?_enum,
        List.getElem?_cons_succ]
      cases rest[i]? with
      | none => rfl
      | some q =>
        simp [Pg.predClause, String.append_assoc]

theorem predicate_clause_rendering_witness :
    ([⟨"id", "=", (1 : Int), "AND"⟩, ⟨"b", ">", 2, "OR"⟩] : List (Pred Int)).head?
        = some ⟨"id", "=", (1 : Int), "AND"⟩
      ∧ ((Sqlite.predLoop [⟨"id", "=", (1 : Int), "AND"⟩, ⟨"b", ">", 2, "OR"⟩]).1)[0]?
          = some ("id" ++ " " ++ "=" ++ " ?")
      ∧ (Sqlite.predLoop [⟨"id", "=", (1 : Int), "AND"⟩, ⟨"b", ">", 2, "OR"⟩]).2
          = [(1 : Int), 2]
      ∧ ((Pg.predLoop 1 [⟨"id", "=", (1 : Int), "AND"⟩, ⟨"b", ">", 2, "OR"⟩]).1)[1]?
          = some ("OR" ++ " " ++ "b" ++ " " ++ ">" ++ " $" ++ natDec 2) := by
  have h := predicate_clause_rendering
    [⟨"id", "=", (1 : Int), "AND"⟩, ⟨"b", ">", 2, "OR"⟩]
    ⟨"id", "=", (1 : Int), "AND"⟩ rfl 1
  refine ⟨rfl, h.1, ?_, ?_⟩
  · rw [h.2.2.1]; rfl
  · have h5 := h.2.2.2.2.1 0 (by decide)
    simpa using h5

/-! ## C6: RIGHT/FULL JOIN downgrade on sqlite -/

/-- C6: when a sqlite SELECT contains a join of kind `right` or `full`, the
rendered join clause is LEFT-JOIN-shaped and appears verbatim in the compiled
text, and the downgrade diagnostic is emitted into the compile result's
warnings.  No error is raised: `Sqlite.compileSelect` is a total function and
always returns a compile result. -/
theorem sqlite_join_downgrade {α : Type} (t : String) (st : SelectStmts α)
    (j : Join) (hj : j ∈ st.join) (hk : j.type = "right" ∨ j.type = "full") :
    (Sqlite.joinPart j).1
        = "LEFT JOIN " ++ j.table ++ " ON " ++ j.first ++ " " ++ j.operator
            ++ " " ++ j.second
      ∧ (∃ pre post,
          (Sqlite.compileSelect t st).sql = pre ++ (Sqlite.joinPart j).1 ++ post)
      ∧ (Sqlite.joinPart j).2 ≠ []
      ∧ ∀ w ∈ (Sqlite.joinPart j).2, w ∈ (Sqlite.compileSelect t st).warnings := by
  have hkw : (Sqlite.joinKeyword j.type).1 = "LEFT JOIN"
      ∧ (Sqlite.joinKeyword j.type).2 ≠ [] := by
    rcases hk with h | h <;> rw [h] <;> simp [Sqlite.joinKeyword]
  refine ⟨?_, ?_, hkw.2, ?_⟩
  · simp only [Sqlite.joinPart, hkw.1]
    simp [String.append_assoc]
  · have hmem : (Sqlite.joinPart j).1 ∈ st.join.map (fun j => (Sqlite.joinPart j).1) :=
      List.mem_map_of_mem _ hj
    have hsql : (Sqlite.compileSelect t st).sql
        = joinSep " "
          (["SELECT",
              if st.select.length ≠ 0 then joinSep ", " st.select else "*",
              "FROM " ++ t]
            ++ st.join.map (fun j => (Sqlite.joinPart j).1)
            ++ (if st.whereList.length ≠ 0 then
                  ["WHERE " ++ joinSep " " (Sqlite.predLoop st.whereList).1] else [])
            ++ (if st.groupBy.length ≠ 0 then
                  ["GROUP BY " ++ joinSep ", " st.groupBy] else [])
            ++ (if st.having.length ≠ 0 then
                  ["HAVING " ++ joinSep " " (Sqlite.predLoop st.having).1] else [])
            ++ (if st.orderBy.length ≠ 0 then
                  ["ORDER BY " ++ joinSep ", "
                    (st.orderBy.map (fun o => o.column ++ " " ++ o.direction.toUpper))]
                else [])
            ++ (match st.limit with
                | some _ => ["LIMIT ?"]
                    ++ (match st.offset with | some _ => ["OFFSET ?"] | none => [])
                | none => [])) := rfl
    refine hsql ▸ joinSep_split " " (Sqlite.joinPart j).1 _ ?_
    simp only [List.mem_append]
    tauto
  · intro w hw
    have : w ∈ (st.join.map (fun j => (Sqlite.joinPart j).2)).flatten :=
      List.mem_flatten.mpr ⟨(Sqlite.joinPart j).2, List.mem_map_of_mem _ hj, hw⟩
    exact this

theorem sqlite_join_downgrade_witness :
    (⟨"right", "b", "a.x", "=", "b.y"⟩ : Join)
        ∈ SelectStmts.join ({ join := [⟨"right", "b", "a.x", "=", "b.y"⟩] } : SelectStmts Int)
      ∧ ((⟨"right", "b", "a.x", "=", "b.y"⟩ : Join).type = "right"
          ∨ (⟨"right", "b", "a.x", "=", "b.y"⟩ : Join).type = "full")
      ∧ ((Sqlite.joinPart (⟨"right", "b", "a.x", "=", "b.y"⟩ : Join)).1
            = "LEFT JOIN " ++ "b" ++ " ON " ++ "a.x" ++ " " ++ "=" ++ " " ++ "b.y"
          ∧ (∃ pre post,
              (Sqlite.compileSelect "a"
                  ({ join := [⟨"right", "b", "a.x", "=", "b.y"⟩] } : SelectStmts Int)).sql
                = pre ++ (Sqlite.joinPart (⟨"right", "b", "a.x", "=", "b.y"⟩ : Join)).1 ++ post)
          ∧ (Sqlite.joinPart (⟨"right", "b", "a.x", "=", "b.y"⟩ : Join)).2 ≠ []
          ∧ ∀ w ∈ (Sqlite.joinPart (⟨"right", "b", "a.x", "=", "b.y"⟩ : Join)).2,
              w ∈ (Sqlite.compileSelect "a"
                ({ join := [⟨"right", "b", "a.x", "=", "b.y"⟩] } : SelectStmts Int)).warnings) :=
  ⟨by decide, Or.inl rfl,
    sqlite_join_downgrade "a" { join := [⟨"right", "b", "a.x", "=", "b.y"⟩] }
      ⟨"right", "b", "a.x", "=", "b.y"⟩ (by decide) (Or.inl rfl)⟩

/-- C4 counterexample: compileColumn applied to a column whose logical type is
unknown returns rendered SQL text with the `VARCHAR(255)` fallback instead of
raising any error, refuting the unknown-type clause of the claim. -/
theorem compileColumn_unknown_type_returns_sql :
    MysqlSchema.DATA_TYPES "wibble" = none
      ∧ MysqlSchema.compileColumn { name := "c", type := "wibble", nullable := true }
          = "c VARCHAR(255)" := by
  constructor <;> rfl

/-! ## C7: fingerprint determinism and collisions

`generateCacheKey` is a pure function of its three arguments, so equal inputs
give equal digests, and the serialized payload determines the inputs
(`decodePayload_round`).  But the digest itself cannot separate all inputs: it
has only `256 ^ 16` possible byte values, so two different SQL strings must
collide. -/

theorem md5Bytes_length (msg : List Nat) : (md5Bytes msg).length = 16 := rfl

theorem md5Bytes_lt (msg : List Nat) : ∀ b ∈ md5Bytes msg, b < 256 := by
  intro b hb
  simp [md5Bytes, leBytes] at hb
  omega

theorem bytesToNat_lt : ∀ bs : List Nat, (∀ b ∈ bs, b < 256) →
    bytesToNat bs < 256 ^ bs.length := by
  intro bs
  induction bs with
  | nil => intro _; simp [bytesToNat]
  | cons b bs ih =>
    intro h
    have hb := h b (List.mem_cons_self b bs)
    have ht := ih (fun x hx => h x (List.mem_cons_of_mem _ hx))
    simp only [bytesToNat, List.length_cons, pow_succ]
    omega

theorem bytesToNat_inj :
    ∀ (bs cs : List Nat), bs.length = cs.length →
      (∀ b ∈ bs, b < 256) → (∀ b ∈ cs, b < 256) →
      bytesToNat bs = bytesToNat cs → bs = cs := by
  intro bs
  induction bs with
  | nil =>
    intro cs hlen _ _ _
    cases cs with
    | nil => rfl
    | cons c cs => simp at hlen
  | cons b bs ih =>
    intro cs hlen hb hc hv
    cases cs with
    | nil => simp at hlen
    | cons c cs =>
      simp only [bytesToNat] at hv
      have hb0 : b < 256 := hb b (List.mem_cons_self b bs)
      have hc0 : c < 256 := hc c (List.mem_cons_self c cs)
      have hbc : b = c ∧ bytesToNat bs = bytesToNat cs := by omega
      obtain ⟨h1, h2⟩ := hbc
      subst h1
      have hrest := ih cs (by simpa using hlen)
        (fun x hx => hb x (List.mem_cons_of_mem _ hx))
        (fun x hx => hc x (List.mem_cons_of_mem _ hx)) h2
      rw [hrest]

/-- C7 counterexample: `generateCacheKey` is NOT injective on distinct inputs:
there exist two different SQL strings (same bindings, same dialect) whose cache
keys are equal.  The digest ranges over at most `256 ^ 16` values while the
inputs are infinite, so by pigeonhole two distinct all-`a` SQL strings share a
digest; the second half of the claim (distinct inputs give distinct digests)
is therefore false. -/
theorem generateCacheKey_not_injective :
    ∃ s₁ s₂ : String, s₁ ≠ s₂
      ∧ generateCacheKey s₁ [] "" = generateCacheKey s₂ [] "" := by
  have hmap : ∀ k : Nat, bytesToNat (md5Bytes (inputOfNat k)) < 256 ^ 16 := by
    intro k
    have h := bytesToNat_lt (md5Bytes (inputOfNat k)) (md5Bytes_lt _)
    rwa [md5Bytes_length] at h
  obtain ⟨m, n, hmn, heq⟩ := Finite.exists_ne_map_eq_of_infinite
    (fun k : Nat => (⟨bytesToNat (md5Bytes (inputOfNat k)), hmap k⟩ : Fin (256 ^ 16)))
  have hv : bytesToNat (md5Bytes (inputOfNat m))
      = bytesToNat (md5Bytes (inputOfNat n)) := by
    have h0 := heq
    simp only [Fin.mk.injEq] at h0
    exact h0
  have hdig : md5Bytes (inputOfNat m) = md5Bytes (inputOfNat n) :=
    bytesToNat_inj _ _ (by rw [md5Bytes_length, md5Bytes_length])
      (md5Bytes_lt _) (md5Bytes_lt _) hv
  refine ⟨String.mk (List.replicate m 'a'), String.mk (List.replicate n 'a'), ?_, ?_⟩
  · intro hc
    apply hmn
    have hlen := congrArg (fun s : String => s.data.length) hc
    simpa using hlen
  · simp only [generateCacheKey, md5Hex]
    simp only [inputOfNat] at hdig
    rw [hdig]

/-- C7 (amended): `generateCacheKey` is deterministic: equal `(sql, bindings,
dialect)` inputs give equal digests; and the serialized payload is injective,
so any collision between different inputs comes only from the md5 digest step,
never from payload construction.  (Distinct digests for distinct inputs, the
second half of the original claim, is impossible for a fixed-width digest.) -/
theorem generateCacheKey_deterministic (s₁ s₂ : String) (b₁ b₂ : List JVal)
    (d₁ d₂ : String) :
    (s₁ = s₂ → b₁ = b₂ → d₁ = d₂ →
      generateCacheKey s₁ b₁ d₁ = generateCacheKey s₂ b₂ d₂)
    ∧ (encodePayload s₁ b₁ d₁ = encodePayload s₂ b₂ d₂ →
        s₁ = s₂ ∧ b₁ = b₂ ∧ d₁ = d₂) := by
  constructor
  · intro h1 h2 h3
    rw [h1, h2, h3]
  · intro hp
    have h1 := decodePayload_round s₁ b₁ d₁
    have h2 := decodePayload_round s₂ b₂ d₂
    rw [hp, h2] at h1
    simp only [Option.some.injEq, Prod.mk.injEq] at h1
    exact ⟨h1.1.symm, h1.2.1.symm, h1.2.2.symm⟩

theorem generateCacheKey_deterministic_witness :
    generateCacheKey "SELECT * FROM t" [] "pg"
        = generateCacheKey "SELECT * FROM t" [] "pg"
      ∧ (("SELECT * FROM t" : String) = "SELECT * FROM t"
          ∧ ([] : List JVal) = [] ∧ ("pg" : String) = "pg") :=
  ⟨(generateCacheKey_deterministic "SELECT * FROM t" "SELECT * FROM t"
      [] [] "pg" "pg").1 rfl rfl rfl,
   (generateCacheKey_deterministic "SELECT * FROM t" "SELECT * FROM t"
      [] [] "pg" "pg").2 rfl⟩

end VesperDB
